import Mathlib

set_option maxHeartbeats 4000000
set_option maxRecDepth 10000

/-!
A shallow embedding of the `newlines` Rust crate (files `src/nl.rs`,
`src/charset.rs`, `src/nlset.rs`, `src/iter/*.rs`).

Conventions of the embedding:

* Rust `char` values are embedded as `Nat` unicode scalar values
  (`'\n'` = 10, `'\x0B'` = 11, `'\x0C'` = 12, `'\r'` = 13,
  `'\u{0085}'` = 133, `'\u{2028}'` = 8232, `'\u{2029}'` = 8233).
* A lazy iterator is embedded as the list of the values a full traversal
  of it yields (forward traversals of the double-ended iterators get a
  separate backward-traversal function).
* Code that can panic (`CharSet::insert` via its capacity `assert!`,
  `CharSet::append` via its unchecked indexing) returns `Option`, with
  `none` standing for the panic.
* `slice::binary_search`, which the source only ever applies to the
  sorted prefix of a `CharSet`, is embedded denotationally: on a strictly
  sorted list, the `Ok` case is membership and both the `Ok` index and the
  `Err` insertion point equal the number of elements smaller than the key.
-/

/-- Embedded Rust `char`: a unicode scalar value. -/
abbrev Ch := Nat

/-- The `Newline` enum of `src/nl.rs`, in declaration order (which matches
the lexicographic order of the string representations). -/
inductive Newline where
  | lineFeed
  | verticalTab
  | formFeed
  | carriageReturn
  | crLf
  | nextLine
  | lineSeparator
  | paragraphSeparator
deriving DecidableEq

/-- Discriminant of a `Newline` (its position in declaration order); the
derived Rust `Ord` on `Newline` compares these. -/
def Newline.code : Newline → Nat
  | .lineFeed => 0
  | .verticalTab => 1
  | .formFeed => 2
  | .carriageReturn => 3
  | .crLf => 4
  | .nextLine => 5
  | .lineSeparator => 6
  | .paragraphSeparator => 7

/-- `Newline::as_str` of `src/nl.rs`. -/
def Newline.as_str : Newline → String
  | .lineFeed => "\n"
  | .verticalTab => "\x0B"
  | .formFeed => "\x0C"
  | .carriageReturn => "\r"
  | .crLf => "\r\n"
  | .nextLine => "\u0085"
  | .lineSeparator => "\u2028"
  | .paragraphSeparator => "\u2029"

/-- The private `CharType` enum of `src/nl.rs`. -/
inductive CharType where
  | char (c : Ch)
  | crLf
deriving DecidableEq

/-- `Newline::chartype` of `src/nl.rs`. -/
def Newline.chartype : Newline → CharType
  | .lineFeed => .char 10
  | .verticalTab => .char 11
  | .formFeed => .char 12
  | .carriageReturn => .char 13
  | .crLf => .crLf
  | .nextLine => .char 133
  | .lineSeparator => .char 8232
  | .paragraphSeparator => .char 8233

/-- `Newline::as_char` of `src/nl.rs`. -/
def Newline.as_char (nl : Newline) : Option Ch :=
  match nl.chartype with
  | .char ch => some ch
  | .crLf => none

/-- `impl TryFrom<char> for Newline` of `src/nl.rs`; `none` embeds
`Err(TryFromCharError(ch))`. -/
def Newline.tryFromChar (c : Ch) : Option Newline :=
  if c = 10 then some .lineFeed
  else if c = 11 then some .verticalTab
  else if c = 12 then some .formFeed
  else if c = 13 then some .carriageReturn
  else if c = 133 then some .nextLine
  else if c = 8232 then some .lineSeparator
  else if c = 8233 then some .paragraphSeparator
  else none

/-- `impl TryFrom<&str> for Newline` of `src/nl.rs`; `none` embeds
`Err(TryFromStrError)`. -/
def Newline.tryFromStr (s : String) : Option Newline :=
  if s = "\n" then some .lineFeed
  else if s = "\x0B" then some .verticalTab
  else if s = "\x0C" then some .formFeed
  else if s = "\r" then some .carriageReturn
  else if s = "\r\n" then some .crLf
  else if s = "\u0085" then some .nextLine
  else if s = "\u2028" then some .lineSeparator
  else if s = "\u2029" then some .paragraphSeparator
  else none

/-- All eight `Newline` variants in declaration (ascending) order, the
yield order of `Newline::iter()`. -/
def allNewlines : List Newline :=
  [.lineFeed, .verticalTab, .formFeed, .carriageReturn, .crLf,
   .nextLine, .lineSeparator, .paragraphSeparator]

/-- The seven distinct initial characters of the `Newline` string
representations, in ascending order. -/
def UChars : List Ch := [10, 11, 12, 13, 133, 8232, 8233]

/-- The `CharSet` struct of `src/charset.rs`: a fixed array of
`Newline::COUNT - 1 = 7` characters whose first `len` slots hold the
members in strictly ascending order, the rest being `'\0'`. -/
structure CharSet where
  data : List Ch
  len : Nat
deriving DecidableEq

/-- `CharSet::as_slice`: the first `len` elements of `data`. -/
def CharSet.asSlice (cs : CharSet) : List Ch := cs.data.take cs.len

/-- `CharSet::contains` (a binary search over the sorted prefix,
embedded as membership). -/
def CharSet.contains (cs : CharSet) (ch : Ch) : Bool :=
  decide (ch ∈ cs.asSlice)

/-- `CharSet::insert` of `src/charset.rs`.  On the `Err(i)` branch of the
binary search, `i` is the insertion point (the number of members smaller
than `ch`); the `assert!(i < self.data.len())` is embedded as returning
`none`; `self.data[i..].rotate_right(1); self.data[i] = ch` turns `data`
into `take i ++ ch :: (drop i).dropLast`. -/
def CharSet.insert (cs : CharSet) (ch : Ch) : Option (CharSet × Bool) :=
  if ch ∈ cs.asSlice then some (cs, false)
  else
    let i := cs.asSlice.countP (fun c => decide (c < ch))
    if i < cs.data.length then
      some (⟨cs.data.take i ++ ch :: (cs.data.drop i).dropLast, cs.len + 1⟩, true)
    else none

/-- `CharSet::remove` of `src/charset.rs`.  On the `Ok(i)` branch, `i` is
the index of `ch` in the sorted prefix (the number of members smaller than
`ch`); `self.data[i] = '\0'; self.data[i..].rotate_left(1)` turns `data`
into `take i ++ drop (i+1) ++ [0]`. -/
def CharSet.remove (cs : CharSet) (ch : Ch) : CharSet × Bool :=
  if ch ∈ cs.asSlice then
    let i := cs.asSlice.countP (fun c => decide (c < ch))
    (⟨cs.data.take i ++ cs.data.drop (i + 1) ++ [0], cs.len - 1⟩, true)
  else (cs, false)

/-- `CharSet::append` of `src/charset.rs`: `self.data[self.len] = ch;
self.len += 1`, with the out-of-bounds indexing panic embedded as `none`. -/
def CharSet.append (cs : CharSet) (ch : Ch) : Option CharSet :=
  if cs.len < cs.data.length then
    some ⟨cs.data.set cs.len ch, cs.len + 1⟩
  else none

/-- The `Diff` enum of `src/charset.rs`. -/
inductive Diff where
  | left (c : Ch)
  | both (c : Ch)
  | right (c : Ch)
deriving DecidableEq

/-- Inner worker for `diffList`, handling one left element `a` against the
remaining right elements; `k` continues the merge with the rest of the left
list. -/
def emitRights (a : Ch) (k : List Ch → List Diff) : List Ch → List Diff
  | [] => Diff.left a :: k []
  | b :: r =>
    if a < b then Diff.left a :: k (b :: r)
    else if b < a then Diff.right b :: emitRights a k r
    else Diff.both a :: k r

/-- The sequence of events yielded by `CharSetDiff` (`src/charset.rs`) on
the remaining elements of its two iterators: a zipper merge comparing the
two heads (`Less` → `Left`, `Equal` → `Both`, `Greater` → `Right`). -/
def diffList : List Ch → List Ch → List Diff
  | [], r => r.map Diff.right
  | a :: l, r => emitRights a (diffList l) r

/-- The `NewlineSet` struct of `src/nlset.rs`. -/
structure NewlineSet where
  pattern : CharSet
  cr : Bool
  crlf : Bool
deriving DecidableEq

/-- `NewlineSet::EMPTY` (also `NewlineSet::new()` / `default()`). -/
def NewlineSet.EMPTY : NewlineSet :=
  ⟨⟨[0, 0, 0, 0, 0, 0, 0], 0⟩, false, false⟩

/-- `NewlineSet::ALL`. -/
def NewlineSet.ALL : NewlineSet :=
  ⟨⟨[10, 11, 12, 13, 133, 8232, 8233], 7⟩, true, true⟩

/-- `NewlineSet::len` of `src/nlset.rs`. -/
def NewlineSet.len (s : NewlineSet) : Nat :=
  s.pattern.len + (if s.cr && s.crlf then 1 else 0)

/-- `NewlineSet::contains` of `src/nlset.rs`. -/
def NewlineSet.contains (s : NewlineSet) (nl : Newline) : Bool :=
  match nl.chartype with
  | .char c => if c = 13 then s.cr else s.pattern.contains c
  | .crLf => s.crlf

/-- `NewlineSet::insert` of `src/nlset.rs`; `none` embeds the (claimed
unreachable) panic of `CharSet::insert`. -/
def NewlineSet.insert (s : NewlineSet) (nl : Newline) : Option (NewlineSet × Bool) :=
  match nl.chartype with
  | .char c =>
    if c = 13 then
      if s.cr then some (s, false)
      else if s.crlf then some ({ s with cr := true }, true)
      else (s.pattern.insert 13).map (fun pr => ({ s with cr := true, pattern := pr.1 }, pr.2))
    else
      (s.pattern.insert c).map (fun pr => ({ s with pattern := pr.1 }, pr.2))
  | .crLf =>
    if s.crlf then some (s, false)
    else if s.cr then some ({ s with crlf := true }, true)
    else (s.pattern.insert 13).map (fun pr => ({ s with crlf := true, pattern := pr.1 }, pr.2))

/-- `NewlineSet::remove` of `src/nlset.rs`. -/
def NewlineSet.remove (s : NewlineSet) (nl : Newline) : NewlineSet × Bool :=
  match nl.chartype with
  | .char c =>
    if c = 13 then
      if !s.cr then (s, false)
      else if s.crlf then ({ s with cr := false }, true)
      else
        let pr := s.pattern.remove 13
        ({ s with cr := false, pattern := pr.1 }, pr.2)
    else
      let pr := s.pattern.remove c
      ({ s with pattern := pr.1 }, pr.2)
  | .crLf =>
    if !s.crlf then (s, false)
    else if s.cr then ({ s with crlf := false }, true)
    else
      let pr := s.pattern.remove 13
      ({ s with crlf := false, pattern := pr.1 }, pr.2)

/-- `NewlineSet::clear` of `src/nlset.rs` (`*self = Self::default()`). -/
def NewlineSet.clear (_ : NewlineSet) : NewlineSet := NewlineSet.EMPTY

/-- `NewlineSet::is_disjoint` of `src/nlset.rs`.  The source loops over the
diff events and returns `false` as soon as one event refutes disjointness;
that early-exit loop is embedded as `List.all` over the event list. -/
def NewlineSet.is_disjoint (s1 s2 : NewlineSet) : Bool :=
  (diffList s1.pattern.asSlice s2.pattern.asSlice).all fun d =>
    match d with
    | .left _ => true
    | .right _ => true
    | .both c =>
      if c = 13 then !(s1.cr && s2.cr || s1.crlf && s2.crlf) else false

/-- The yields of a full forward traversal of `Char2Newline`
(`src/iter/inner.rs`) over the chars its inner iterator yields.  The flag
arguments of the recursive calls track the mutation `self.cr = false`
performed when a `'\r'` is split into `CarriageReturn` followed by the
queued `CrLf`.  A char that `Newline::try_from` rejects makes `next()`
return `None`, stopping the traversal. -/
def char2newline : List Ch → Bool → Bool → List Newline
  | [], _, _ => []
  | c :: rest, cr, crlf =>
    if c = 13 then
      if cr then
        if crlf then .carriageReturn :: .crLf :: char2newline rest false true
        else .carriageReturn :: char2newline rest true false
      else if crlf then .crLf :: char2newline rest false true
      else char2newline rest false false
    else
      match Newline.tryFromChar c with
      | some nl => nl :: char2newline rest cr crlf
      | none => []

/-- The yields of a full backward traversal of `Char2Newline`
(`Char2Newline::next_back`), given the chars of the inner iterator in
reverse order; the result is in yield order.  When both flags are set, a
`'\r'` yields `CrLf` first, queues `CarriageReturn`, and performs
`self.crlf = false`.  A `'\r'` with both flags unset falls through to the
generic arm and is mapped by `Newline::try_from` to `CarriageReturn`
(unlike `next`, `next_back` has no skip branch). -/
def char2newlineBack : List Ch → Bool → Bool → List Newline
  | [], _, _ => []
  | c :: rest, cr, crlf =>
    if c = 13 && crlf then
      if cr then .crLf :: .carriageReturn :: char2newlineBack rest true false
      else .crLf :: char2newlineBack rest false true
    else if c = 13 && cr then .carriageReturn :: char2newlineBack rest true false
    else
      match Newline.tryFromChar c with
      | some nl => nl :: char2newlineBack rest cr crlf
      | none => []

/-- Forward yields of `NewlineSet::iter` / `IntoIter` (`src/iter/into_iter.rs`):
`Char2Newline` over `CharSetIter`, seeded with the set's two flags. -/
def NewlineSet.iterList (s : NewlineSet) : List Newline :=
  char2newline s.pattern.asSlice s.cr s.crlf

/-- Backward yields of `IntoIter` (via `DoubleEndedIterator::next_back`). -/
def NewlineSet.iterBackList (s : NewlineSet) : List Newline :=
  char2newlineBack s.pattern.asSlice.reverse s.cr s.crlf

/-- Yields of `InnerUnion` (`src/iter/union.rs`): every diff event's char. -/
def innerUnionList (ds : List Diff) : List Ch :=
  ds.map fun d =>
    match d with
    | .left c => c
    | .both c => c
    | .right c => c

/-- Yields of `InnerIntersection` (`src/iter/intersection.rs`): the chars of
`Both` events only (the skipping loop is embedded as `filterMap`). -/
def innerIntersectionList (ds : List Diff) : List Ch :=
  ds.filterMap fun d =>
    match d with
    | .both c => some c
    | _ => none

/-- Yields of `InnerSymmetricDifference` (`src/iter/symdiff.rs`): `Left` and
`Right` chars, plus `Both('\r')` passed through. -/
def innerSymDiffList (ds : List Diff) : List Ch :=
  ds.filterMap fun d =>
    match d with
    | .left c => some c
    | .right c => some c
    | .both c => if c = 13 then some 13 else none

/-- Yields of `InnerDifference` (`src/iter/diff.rs`): `Left` chars, plus
`Both('\r')` passed through. -/
def innerDifferenceList (ds : List Diff) : List Ch :=
  ds.filterMap fun d =>
    match d with
    | .left c => some c
    | .both c => if c = 13 then some 13 else none
    | .right _ => none

/-- Yields of `Union::new(s1, s2)` (`src/iter/union.rs`): flags are OR'd. -/
def NewlineSet.unionList (s1 s2 : NewlineSet) : List Newline :=
  char2newline (innerUnionList (diffList s1.pattern.asSlice s2.pattern.asSlice))
    (s1.cr || s2.cr) (s1.crlf || s2.crlf)

/-- Yields of `Intersection::new(s1, s2)` (`src/iter/intersection.rs`):
flags are AND'd. -/
def NewlineSet.intersectionList (s1 s2 : NewlineSet) : List Newline :=
  char2newline (innerIntersectionList (diffList s1.pattern.asSlice s2.pattern.asSlice))
    (s1.cr && s2.cr) (s1.crlf && s2.crlf)

/-- Yields of `SymmetricDifference::new(s1, s2)` (`src/iter/symdiff.rs`):
flags are XOR'd. -/
def NewlineSet.symmetricDifferenceList (s1 s2 : NewlineSet) : List Newline :=
  char2newline (innerSymDiffList (diffList s1.pattern.asSlice s2.pattern.asSlice))
    (xor s1.cr s2.cr) (xor s1.crlf s2.crlf)

/-- Yields of `Difference::new(s1, s2)` (`src/iter/diff.rs`):
flags are `a && !b`. -/
def NewlineSet.differenceList (s1 s2 : NewlineSet) : List Newline :=
  char2newline (innerDifferenceList (diffList s1.pattern.asSlice s2.pattern.asSlice))
    (s1.cr && !s2.cr) (s1.crlf && !s2.crlf)

/-- Yields of `Complement::new(s)` (`src/iter/complement.rs`):
`InnerDifference` of `ALL.pattern` and `s.pattern`, flags negated. -/
def NewlineSet.complementList (s : NewlineSet) : List Newline :=
  char2newline (innerDifferenceList (diffList NewlineSet.ALL.pattern.asSlice s.pattern.asSlice))
    (!s.cr) (!s.crlf)

/-- One step of the loop body of `AscendingNewlines::into_newline_set`
(`src/iter/mod.rs`): sets the flag for CR / CRLF and computes the char
to consider appending. -/
def ansStep (s : NewlineSet) (nl : Newline) : NewlineSet × Ch :=
  match nl.chartype with
  | .char c => if c = 13 then ({ s with cr := true }, 13) else (s, c)
  | .crLf => ({ s with crlf := true }, 13)

/-- The loop of `AscendingNewlines::into_newline_set`, carrying the
`prev_char` dedup state; `none` embeds the `CharSet::append` panic. -/
def ansGo (s : NewlineSet) (prev : Option Ch) : List Newline → Option NewlineSet
  | [] => some s
  | nl :: rest =>
    let p := ansStep s nl
    if prev = some p.2 then ansGo p.1 (some p.2) rest
    else
      match p.1.pattern.append p.2 with
      | some pat => ansGo { p.1 with pattern := pat } (some p.2) rest
      | none => none

/-- `AscendingNewlines::into_newline_set` (`src/iter/mod.rs`), applied to the
list of newlines the iterator yields. -/
def intoNewlineSet (l : List Newline) : Option NewlineSet :=
  ansGo NewlineSet.EMPTY none l

/-- `A.union(B).into_newline_set()`, i.e. the `|` operator on sets. -/
def NewlineSet.unionSet (s1 s2 : NewlineSet) : Option NewlineSet :=
  intoNewlineSet (s1.unionList s2)

/-- `A.intersection(B).into_newline_set()`, i.e. the `&` operator on sets. -/
def NewlineSet.intersectionSet (s1 s2 : NewlineSet) : Option NewlineSet :=
  intoNewlineSet (s1.intersectionList s2)

/-- `A.symmetric_difference(B).into_newline_set()`, i.e. the `^` operator. -/
def NewlineSet.symmetricDifferenceSet (s1 s2 : NewlineSet) : Option NewlineSet :=
  intoNewlineSet (s1.symmetricDifferenceList s2)

/-- `A.difference(B).into_newline_set()`, i.e. the `-` operator on sets. -/
def NewlineSet.differenceSet (s1 s2 : NewlineSet) : Option NewlineSet :=
  intoNewlineSet (s1.differenceList s2)

/-- `A.complement().into_newline_set()`, i.e. the `!` operator on a set. -/
def NewlineSet.complementSet (s : NewlineSet) : Option NewlineSet :=
  intoNewlineSet s.complementList

/-- The comparison used by `arr.sort_unstable()` in
`impl From<[Newline; N]> for NewlineSet`: the derived `Ord`, i.e.
declaration order. -/
def nlLe (a b : Newline) : Prop := a.code ≤ b.code

instance : DecidableRel nlLe := fun a b => Nat.decLe a.code b.code

instance : IsTotal Newline nlLe := ⟨fun a b => Nat.le_total a.code b.code⟩

instance : IsTrans Newline nlLe := ⟨fun _ _ _ => Nat.le_trans⟩

/-- The sort performed by `impl From<[Newline; N]> for NewlineSet`.  Since
equal `Newline`s are identical, any stable or unstable sort produces the
same, unique, nondecreasing permutation that `sort_unstable` does. -/
def sortNl (l : List Newline) : List Newline := List.insertionSort nlLe l

/-- `impl From<[Newline; N]> for NewlineSet` (`src/nlset.rs`): sort, then run
the very same flag-setting / `prev_char`-dedup / `append` fold that
`into_newline_set` runs. -/
def NewlineSet.fromArray (l : List Newline) : Option NewlineSet :=
  intoNewlineSet (sortNl l)

/-- `impl From<Newline> for NewlineSet`: insert into a fresh empty set
(the returned `bool` is discarded). -/
def NewlineSet.fromNewline (nl : Newline) : Option NewlineSet :=
  (NewlineSet.EMPTY.insert nl).map Prod.fst

/-- `impl FromIterator<Newline> for NewlineSet`: fold `insert` over the
yields, discarding the returned `bool`s. -/
def NewlineSet.fromIter (l : List Newline) : Option NewlineSet :=
  l.foldlM (fun s nl => (s.insert nl).map Prod.fst) NewlineSet.EMPTY

/-- Boolean strict-sortedness of a list under a strict-order test. -/
def strictSortedBy {α : Type} (lt : α → α → Bool) : List α → Bool
  | [] => true
  | [_] => true
  | a :: b :: rest => lt a b && strictSortedBy lt (b :: rest)

/-- The strict comparison on embedded chars. -/
def natLtB (a b : Ch) : Bool := decide (a < b)

/-- The strict comparison on `Newline`s (declaration order). -/
def nlLtB (a b : Newline) : Bool := decide (a.code < b.code)

/-- The documented representation invariant of `CharSet`: the backing array
has length `Newline::COUNT - 1 = 7`, `len` is within capacity, the first
`len` slots are strictly ascending, and the remaining slots are `'\0'`. -/
def CharSet.wfB (cs : CharSet) : Bool :=
  decide (cs.data.length = 7) && decide (cs.len ≤ 7) &&
    strictSortedBy natLtB cs.asSlice &&
    decide (cs.data.drop cs.len = List.replicate (7 - cs.len) 0)

/-- The representation invariant of `NewlineSet`: the pattern is a
well-formed `CharSet`, every pattern char is the initial char of some
newline sequence (so every non-`'\r'` char is the single-char
representation of exactly one non-CR/CRLF variant), and `'\r'` is in the
pattern iff `cr || crlf`. -/
def NewlineSet.wfB (s : NewlineSet) : Bool :=
  s.pattern.wfB && decide (∀ c ∈ s.pattern.asSlice, c ∈ UChars) &&
    (decide (13 ∈ s.pattern.asSlice) == (s.cr || s.crlf))

/-- Char-level membership induced by a `Newline`-membership function:
`'\r'` is present iff CR or CRLF is, any other initial char iff its
variant is. -/
def charMem (m : Newline → Bool) (c : Ch) : Bool :=
  if c = 13 then m .carriageReturn || m .crLf
  else
    match Newline.tryFromChar c with
    | some nl => m nl
    | none => false

/-- The well-formed `CharSet` whose members are exactly the given strictly
sorted list (of length at most 7). -/
def CharSet.ofList (l : List Ch) : CharSet :=
  ⟨l ++ List.replicate (7 - l.length) 0, l.length⟩

/-- The canonical `NewlineSet` with the given membership function. -/
def canon (m : Newline → Bool) : NewlineSet :=
  { pattern := CharSet.ofList (UChars.filter (charMem m)),
    cr := m .carriageReturn,
    crlf := m .crLf }

/-- The canonical `NewlineSet` containing exactly the newlines of a list. -/
def canonL (l : List Newline) : NewlineSet :=
  canon fun n => decide (n ∈ l)

/-- A `Newline` membership function given by one explicit boolean per
variant (in declaration order); used to enumerate the 256 possible
membership functions in decidable statements. -/
def predOf (b1 b2 b3 b4 b5 b6 b7 b8 : Bool) : Newline → Bool
  | .lineFeed => b1
  | .verticalTab => b2
  | .formFeed => b3
  | .carriageReturn => b4
  | .crLf => b5
  | .nextLine => b6
  | .lineSeparator => b7
  | .paragraphSeparator => b8

/-- Specification-side description of what the disambiguation layer makes of
one source char: `'\r'` becomes the CR/CRLF members selected by the flags
(in ascending order), any other char its unique variant. -/
def expand (c : Ch) (cr crlf : Bool) : List Newline :=
  if c = 13 then
    (if cr then [Newline.carriageReturn] else []) ++ (if crlf then [Newline.crLf] else [])
  else
    match Newline.tryFromChar c with
    | some nl => [nl]
    | none => []

/-- The nondecreasing comparison on `Newline`s as a boolean. -/
def nlLeB (a b : Newline) : Bool := decide (a.code ≤ b.code)

/-- Collapse adjacent equal elements of a list. -/
def dedupAdj {α : Type} [DecidableEq α] : List α → List α
  | [] => []
  | [a] => [a]
  | a :: b :: rest =>
    if a = b then dedupAdj (b :: rest) else a :: dedupAdj (b :: rest)

/-- The default `Iterator::size_hint` of `CharSetDiff` and of the four
`Inner*` wrappers around it, none of which overrides `size_hint`. -/
def diffInnerSizeHint : Nat × Option Nat := (0, none)

/-- `Char2Newline::size_hint` (`src/iter/inner.rs`): the inner hint plus one
for `cr && crlf`, one for a queued element, one for a back-queued one. -/
def char2newlineSizeHint (inner : Nat × Option Nat) (cr crlf : Bool)
    (queued queuedBack : Option Newline) : Nat × Option Nat :=
  let inc := (if cr && crlf then 1 else 0) + (if queued.isSome then 1 else 0) +
    (if queuedBack.isSome then 1 else 0)
  (inner.1 + inc, inner.2.map (· + inc))

/-- `Union::size_hint` on a freshly created `A.union(B)` (no element
consumed yet, so both queue slots are empty). -/
def NewlineSet.unionSizeHintFresh (s1 s2 : NewlineSet) : Nat × Option Nat :=
  char2newlineSizeHint diffInnerSizeHint (s1.cr || s2.cr) (s1.crlf || s2.crlf)
    none none

/-- The `NewlineSet` values reachable through the public constructors
(`EMPTY`/`new`, `From<Newline>`, `From<[Newline; N]>`, `FromIterator`),
mutation (`insert`, `remove`, `clear`) and collecting any of the five lazy
set-operation iterators back into a `NewlineSet`. -/
inductive Reachable : NewlineSet → Prop where
  | empty : Reachable NewlineSet.EMPTY
  | ofNewline (nl : Newline) (s : NewlineSet) :
      NewlineSet.fromNewline nl = some s → Reachable s
  | ofArray (l : List Newline) (s : NewlineSet) :
      NewlineSet.fromArray l = some s → Reachable s
  | ofIter (l : List Newline) (s : NewlineSet) :
      NewlineSet.fromIter l = some s → Reachable s
  | insertStep (s : NewlineSet) (nl : Newline) (s' : NewlineSet) (b : Bool) :
      Reachable s → s.insert nl = some (s', b) → Reachable s'
  | removeStep (s : NewlineSet) (nl : Newline) :
      Reachable s → Reachable (s.remove nl).1
  | clearStep (s : NewlineSet) : Reachable s → Reachable s.clear
  | unionStep (a b s : NewlineSet) :
      Reachable a → Reachable b → a.unionSet b = some s → Reachable s
  | interStep (a b s : NewlineSet) :
      Reachable a → Reachable b → a.intersectionSet b = some s → Reachable s
  | symdiffStep (a b s : NewlineSet) :
      Reachable a → Reachable b → a.symmetricDifferenceSet b = some s → Reachable s
  | diffStep (a b s : NewlineSet) :
      Reachable a → Reachable b → a.differenceSet b = some s → Reachable s
  | complementStep (a s : NewlineSet) :
      Reachable a → a.complementSet = some s → Reachable s

/-- The event tag produced for one universe element by the merge of two
filters of the universe. -/
def diffTag (p q : Ch → Bool) (c : Ch) : Option Diff :=
  if p c then (if q c then some (Diff.both c) else some (Diff.left c))
  else if q c then some (Diff.right c) else none

/-- A char-membership function given by one explicit boolean per universe
char; used to enumerate char-level predicates in decidable statements. -/
def chPredOf (c1 c2 c3 c4 c5 c6 c7 : Bool) (c : Ch) : Bool :=
  if c = 10 then c1 else if c = 11 then c2 else if c = 12 then c3
  else if c = 13 then c4 else if c = 133 then c5
  else if c = 8232 then c6 else if c = 8233 then c7 else false

/-- The per-event acceptance test of the `is_disjoint` scan, with `b` the
flag check used for a shared `'\r'`. -/
def disjPred (b : Bool) : Diff → Bool
  | .left _ => true
  | .right _ => true
  | .both c => if c = 13 then b else false

/-- Split a boolean conjunction hypothesis. -/
theorem bandE {x y : Bool} (h : (x && y) = true) : x = true ∧ y = true := by
  simp only [Bool.and_eq_true] at h
  exact h

/-- Tail of a boolean sorted chain. -/
theorem strictSortedBy_tail {α : Type} (lt : α → α → Bool) (a : α) (l : List α)
    (h : strictSortedBy lt (a :: l) = true) : strictSortedBy lt l = true := by
  cases l with
  | nil => rfl
  | cons b r => exact (bandE h).2

/-- In a chain whose comparison is transitive, the head is below every
later element. -/
theorem strictSortedBy_head_lt {α : Type} (lt : α → α → Bool)
    (htr : ∀ a b c, lt a b = true → lt b c = true → lt a c = true) :
    ∀ (l : List α) (a : α), strictSortedBy lt (a :: l) = true →
      ∀ x ∈ l, lt a x = true := by
  intro l
  induction l with
  | nil => intro a _ x hx; cases hx
  | cons b r ih =>
    intro a h x hx
    have hab : lt a b = true := (bandE h).1
    have hbr : strictSortedBy lt (b :: r) = true := (bandE h).2
    rcases List.mem_cons.mp hx with rfl | hx'
    · exact hab
    · exact htr a b x hab (ih b hbr x hx')

/-- Build a chain from a head bound and a sorted tail. -/
theorem strictSortedBy_cons {α : Type} (lt : α → α → Bool) (a : α) (l : List α)
    (h1 : ∀ x ∈ l, lt a x = true) (h2 : strictSortedBy lt l = true) :
    strictSortedBy lt (a :: l) = true := by
  cases l with
  | nil => rfl
  | cons b r =>
    show (lt a b && strictSortedBy lt (b :: r)) = true
    simp only [Bool.and_eq_true]
    exact ⟨h1 b (List.mem_cons_self b r), h2⟩

/-- Filtering preserves a transitive sorted chain. -/
theorem strictSortedBy_filter {α : Type} (lt : α → α → Bool)
    (htr : ∀ a b c, lt a b = true → lt b c = true → lt a c = true) (g : α → Bool) :
    ∀ l : List α, strictSortedBy lt l = true →
      strictSortedBy lt (l.filter g) = true := by
  intro l
  induction l with
  | nil => intro h; exact h
  | cons a t ih =>
    intro h
    have ht := strictSortedBy_tail lt a t h
    by_cases hg : g a = true
    · rw [List.filter_cons_of_pos hg]
      refine strictSortedBy_cons lt a _ ?_ (ih ht)
      intro x hx
      exact strictSortedBy_head_lt lt htr t a h x (List.mem_of_mem_filter hx)
    · rw [List.filter_cons_of_neg (by simpa using hg)]
      exact ih ht

/-- A strictly sorted list of elements of a strictly sorted universe is the
filter of the universe by membership. -/
theorem sorted_subset_filter {α : Type} [DecidableEq α] (lt : α → α → Bool)
    (htr : ∀ a b c, lt a b = true → lt b c = true → lt a c = true)
    (hasym : ∀ a b, lt a b = true → lt b a = true → False) :
    ∀ (u l : List α), strictSortedBy lt u = true → strictSortedBy lt l = true →
      (∀ x ∈ l, x ∈ u) → l = u.filter (fun c => decide (c ∈ l)) := by
  intro u
  induction u with
  | nil =>
    intro l _ _ hsub
    cases l with
    | nil => rfl
    | cons b r => exact absurd (hsub b (List.mem_cons_self b r)) (List.not_mem_nil b)
  | cons a u' ih =>
    intro l hu hl hsub
    have hu' := strictSortedBy_tail lt a u' hu
    have hau := strictSortedBy_head_lt lt htr u' a hu
    by_cases hal : a ∈ l
    · cases l with
      | nil => exact absurd hal (List.not_mem_nil a)
      | cons b l' =>
        have hbl := strictSortedBy_head_lt lt htr l' b hl
        have hab : a = b := by
          rcases List.mem_cons.mp hal with h | h
          · exact h
          · exfalso
            have hba : lt b a = true := hbl a h
            have hbu : b ∈ a :: u' := hsub b (List.mem_cons_self b l')
            rcases List.mem_cons.mp hbu with rfl | hbu'
            · exact hasym b b hba hba
            · exact hasym a b (hau b hbu') hba
        subst hab
        rw [List.filter_cons_of_pos (by simp)]
        have hfc : u'.filter (fun c => decide (c ∈ a :: l')) =
            u'.filter (fun c => decide (c ∈ l')) := by
          apply List.filter_congr
          intro x hxu
          have hax : lt a x = true := hau x hxu
          have hxa : ¬(x = a) := by
            rintro rfl; exact hasym x x hax hax
          simp [List.mem_cons, hxa]
        rw [hfc]
        have hl' : strictSortedBy lt l' = true := strictSortedBy_tail lt a l' hl
        have hsub' : ∀ x ∈ l', x ∈ u' := by
          intro x hx
          rcases List.mem_cons.mp (hsub x (List.mem_cons_of_mem a hx)) with rfl | h
          · exact absurd (hbl x hx) (fun hh => hasym x x hh hh)
          · exact h
        rw [← ih l' hu' hl' hsub']
    · rw [List.filter_cons_of_neg (by simpa using hal)]
      apply ih l hu' hl
      intro x hx
      rcases List.mem_cons.mp (hsub x hx) with rfl | h
      · exact absurd hx hal
      · exact h

/-- Every `Newline` is in the enumeration list. -/
theorem mem_allNewlines (n : Newline) : n ∈ allNewlines := by
  cases n <;> simp [allNewlines]

/-- Transitivity of the boolean char comparison. -/
theorem natLtB_trans : ∀ a b c : Ch, natLtB a b = true → natLtB b c = true →
    natLtB a c = true := by
  intro a b c h1 h2
  exact decide_eq_true (Nat.lt_trans (of_decide_eq_true h1) (of_decide_eq_true h2))

/-- Asymmetry of the boolean char comparison. -/
theorem natLtB_asym : ∀ a b : Ch, natLtB a b = true → natLtB b a = true → False := by
  intro a b h1 h2
  exact Nat.lt_irrefl a (Nat.lt_trans (of_decide_eq_true h1) (of_decide_eq_true h2))

/-- The char universe is strictly sorted. -/
theorem UChars_sorted : strictSortedBy natLtB UChars = true := by decide

/-- The pattern slice of a canonical set is the filtered char universe. -/
theorem canon_slice (m : Newline → Bool) :
    (canon m).pattern.asSlice = UChars.filter (charMem m) :=
  List.take_left _ _

/-- Membership in a canonical set is the given membership function. -/
theorem contains_canon (m : Newline → Bool) (n : Newline) :
    (canon m).contains n = m n := by
  have hs := canon_slice m
  cases n <;>
    first
    | rfl
    | simp [NewlineSet.contains, Newline.chartype, CharSet.contains, hs,
        List.mem_filter, charMem, UChars, Newline.tryFromChar]

/-- Pointwise equal membership functions give the same canonical set. -/
theorem canon_congr {m1 m2 : Newline → Bool} (h : ∀ n, m1 n = m2 n) :
    canon m1 = canon m2 := by
  have hcm : UChars.filter (charMem m1) = UChars.filter (charMem m2) := by
    apply List.filter_congr
    intro c _
    simp only [charMem]
    split
    · rw [h, h]
    · split
      · exact h _
      · rfl
  simp only [canon, hcm, h]

/-- Every `NewlineSet` satisfying the representation invariant is the
canonical set of its own membership function: the representation of a
logical set of newlines is unique. -/
theorem wf_canonical (s : NewlineSet) (h : s.wfB = true) :
    s = canon (fun n => s.contains n) := by
  simp only [NewlineSet.wfB, CharSet.wfB, Bool.and_eq_true, beq_iff_eq,
    decide_eq_true_eq] at h
  obtain ⟨⟨⟨⟨⟨h1, h2⟩, h3⟩, h4⟩, h5⟩, h6⟩ := h
  have hslice : s.pattern.asSlice =
      UChars.filter (fun c => decide (c ∈ s.pattern.asSlice)) :=
    sorted_subset_filter natLtB natLtB_trans natLtB_asym UChars s.pattern.asSlice
      UChars_sorted h3 h5
  have hcongr : UChars.filter (fun c => decide (c ∈ s.pattern.asSlice)) =
      UChars.filter (charMem (fun n => s.contains n)) := by
    apply List.filter_congr
    intro c hc
    simp only [UChars] at hc
    fin_cases hc <;>
      simp [charMem, Newline.tryFromChar, NewlineSet.contains, Newline.chartype,
        CharSet.contains, h6]
  have hfe : s.pattern.asSlice = UChars.filter (charMem (fun n => s.contains n)) :=
    hslice.trans hcongr
  have hlen : s.pattern.asSlice.length = s.pattern.len := by
    simp only [CharSet.asSlice, List.length_take]
    omega
  have hdata : s.pattern.data =
      s.pattern.asSlice ++ List.replicate (7 - s.pattern.len) 0 := by
    conv_lhs => rw [← List.take_append_drop s.pattern.len s.pattern.data]
    rw [h4]
    rfl
  obtain ⟨⟨data, len⟩, scr, scrlf⟩ := s
  simp only [CharSet.asSlice] at hfe hlen hdata
  simp only [canon, CharSet.ofList, NewlineSet.mk.injEq, CharSet.mk.injEq]
  refine ⟨⟨?_, ?_⟩, rfl, rfl⟩
  · rw [← hfe, hlen]
    exact hdata
  · rw [← hfe, hlen]

/-- Every canonical set satisfies the representation invariant. -/
theorem canon_wfB (m : Newline → Bool) : (canon m).wfB = true := by
  have hL : (UChars.filter (charMem m)).length ≤ 7 := by
    have h := List.length_filter_le (charMem m) UChars
    simpa [UChars] using h
  simp only [NewlineSet.wfB, CharSet.wfB, Bool.and_eq_true, beq_iff_eq,
    decide_eq_true_eq]
  refine ⟨⟨⟨⟨⟨?_, ?_⟩, ?_⟩, ?_⟩, ?_⟩, ?_⟩
  · show (UChars.filter (charMem m) ++ List.replicate (7 - _) 0).length = 7
    simp only [List.length_append, List.length_replicate]
    omega
  · exact hL
  · rw [canon_slice]
    exact strictSortedBy_filter natLtB natLtB_trans (charMem m) UChars UChars_sorted
  · exact List.drop_left _ _
  · rw [canon_slice]
    intro c hc
    exact (List.mem_filter.mp hc).1
  · rw [canon_slice]
    simp [List.mem_filter, charMem, UChars, canon]

/-- Filtering the enumeration by a membership function only looks at the
eight variant values. -/
theorem filter_predOf (m : Newline → Bool) :
    allNewlines.filter m = allNewlines.filter (predOf (m .lineFeed) (m .verticalTab)
      (m .formFeed) (m .carriageReturn) (m .crLf) (m .nextLine) (m .lineSeparator)
      (m .paragraphSeparator)) := by
  apply List.filter_congr
  intro n _
  cases n <;> rfl

/-- A canonical set only looks at the eight variant values. -/
theorem canon_predOf (m : Newline → Bool) :
    canon m = canon (predOf (m .lineFeed) (m .verticalTab) (m .formFeed)
      (m .carriageReturn) (m .crLf) (m .nextLine) (m .lineSeparator)
      (m .paragraphSeparator)) :=
  canon_congr (fun n => by cases n <;> rfl)

/-- The reducer of `into_newline_set`, run on the ascending enumeration
filtered by any of the 256 membership functions, rebuilds exactly the
canonical set (checked by enumeration). -/
theorem intoNewlineSet_predOf : ∀ b1 b2 b3 b4 b5 b6 b7 b8 : Bool,
    intoNewlineSet (allNewlines.filter (predOf b1 b2 b3 b4 b5 b6 b7 b8))
      = some (canon (predOf b1 b2 b3 b4 b5 b6 b7 b8)) := by decide

/-- The reducer of `into_newline_set` rebuilds the canonical set from any
filtered enumeration. -/
theorem intoNewlineSet_filter (m : Newline → Bool) :
    intoNewlineSet (allNewlines.filter m) = some (canon m) := by
  rw [filter_predOf m, canon_predOf m]
  exact intoNewlineSet_predOf _ _ _ _ _ _ _ _

/-- Merging with a left head below everything on the right yields a `Left`
event. -/
theorem diffList_cons_left {a : Ch} (X Y : List Ch) (h : ∀ b ∈ Y, a < b) :
    diffList (a :: X) Y = Diff.left a :: diffList X Y := by
  cases Y with
  | nil => rfl
  | cons b r =>
    show emitRights a (diffList X) (b :: r) = _
    simp [emitRights, h b (List.mem_cons_self b r)]

/-- Merging with a right head below everything on the left yields a `Right`
event. -/
theorem diffList_cons_right {b : Ch} (X Y : List Ch) (h : ∀ a ∈ X, b < a) :
    diffList X (b :: Y) = Diff.right b :: diffList X Y := by
  cases X with
  | nil => rfl
  | cons a l =>
    have hba : b < a := h a (List.mem_cons_self a l)
    have hab : ¬(a < b) := Nat.lt_asymm hba
    show emitRights a (diffList l) (b :: Y) = _
    simp [emitRights, hab, hba]
    rfl

/-- The merge of two filters of a strictly sorted universe tags each
universe element as `Left`, `Both`, `Right`, or absent. -/
theorem diffList_filter (p q : Ch → Bool) :
    ∀ u : List Ch, strictSortedBy natLtB u = true →
      diffList (u.filter p) (u.filter q) = u.filterMap (diffTag p q) := by
  intro u
  induction u with
  | nil => intro _; rfl
  | cons a t ih =>
    intro h
    have ht := strictSortedBy_tail natLtB a t h
    have hat : ∀ x ∈ t, a < x := by
      intro x hx
      exact of_decide_eq_true (strictSortedBy_head_lt natLtB natLtB_trans t a h x hx)
    rw [List.filterMap_cons]
    by_cases hp : p a = true <;> by_cases hq : q a = true
    · rw [List.filter_cons_of_pos hp, List.filter_cons_of_pos hq]
      have h1 : ¬(a < a) := Nat.lt_irrefl a
      show emitRights a (diffList (t.filter p)) (a :: t.filter q) = _
      simp only [emitRights, if_neg h1]
      simp [diffTag, hp, hq, ih ht]
    · rw [List.filter_cons_of_pos hp, List.filter_cons_of_neg (by simpa using hq)]
      rw [diffList_cons_left _ _
        (fun b hb => hat b (List.mem_of_mem_filter hb))]
      simp [diffTag, hp, hq, ih ht]
    · rw [List.filter_cons_of_neg (by simpa using hp), List.filter_cons_of_pos hq]
      rw [diffList_cons_right _ _
        (fun b hb => hat b (List.mem_of_mem_filter hb))]
      simp [diffTag, hp, hq, ih ht]
    · rw [List.filter_cons_of_neg (by simpa using hp),
        List.filter_cons_of_neg (by simpa using hq)]
      simp [diffTag, hp, hq, ih ht]

/-- A `filterMap` that keeps or drops each element unchanged is a filter. -/
theorem filterMap_eq_filter_of (f : Ch → Option Ch) (g : Ch → Bool)
    (hf : ∀ c, f c = if g c then some c else none) :
    ∀ u : List Ch, u.filterMap f = u.filter g := by
  intro u
  induction u with
  | nil => rfl
  | cons a t ih =>
    rw [List.filterMap_cons]
    by_cases hg : g a = true
    · rw [List.filter_cons_of_pos hg]
      simp only [hf, hg, if_true, ih]
    · rw [List.filter_cons_of_neg (by simpa using hg)]
      simp only [hf, hg, if_false, ih]
      simp [hg]

/-- Char-level content of `InnerUnion` on the merge of two filters. -/
theorem innerUnion_spec (p q : Ch → Bool) (u : List Ch)
    (hu : strictSortedBy natLtB u = true) :
    innerUnionList (diffList (u.filter p) (u.filter q)) =
      u.filter (fun c => p c || q c) := by
  rw [diffList_filter p q u hu, innerUnionList, List.map_filterMap]
  apply filterMap_eq_filter_of
  intro c
  by_cases hp : p c = true <;> by_cases hq : q c = true <;>
    simp [diffTag, hp, hq]

/-- Char-level content of `InnerIntersection` on the merge of two filters. -/
theorem innerIntersection_spec (p q : Ch → Bool) (u : List Ch)
    (hu : strictSortedBy natLtB u = true) :
    innerIntersectionList (diffList (u.filter p) (u.filter q)) =
      u.filter (fun c => p c && q c) := by
  rw [diffList_filter p q u hu, innerIntersectionList, List.filterMap_filterMap]
  apply filterMap_eq_filter_of
  intro c
  by_cases hp : p c = true <;> by_cases hq : q c = true <;>
    simp [diffTag, hp, hq]

/-- Char-level content of `InnerSymmetricDifference` on the merge of two
filters: symmetric difference of the chars, except that a shared `'\r'` is
passed through. -/
theorem innerSymDiff_spec (p q : Ch → Bool) (u : List Ch)
    (hu : strictSortedBy natLtB u = true) :
    innerSymDiffList (diffList (u.filter p) (u.filter q)) =
      u.filter (fun c => if c = 13 then p c || q c else xor (p c) (q c)) := by
  rw [diffList_filter p q u hu, innerSymDiffList, List.filterMap_filterMap]
  apply filterMap_eq_filter_of
  intro c
  by_cases h13 : c = 13
  · subst h13
    by_cases hp : p 13 = true <;> by_cases hq : q 13 = true <;>
      simp [diffTag, hp, hq]
  · by_cases hp : p c = true <;> by_cases hq : q c = true <;>
      simp [diffTag, hp, hq, h13]

/-- Char-level content of `InnerDifference` on the merge of two filters:
left-only chars, except that a shared `'\r'` is passed through. -/
theorem innerDifference_spec (p q : Ch → Bool) (u : List Ch)
    (hu : strictSortedBy natLtB u = true) :
    innerDifferenceList (diffList (u.filter p) (u.filter q)) =
      u.filter (fun c => if c = 13 then p c else (p c && !q c)) := by
  rw [diffList_filter p q u hu, innerDifferenceList, List.filterMap_filterMap]
  apply filterMap_eq_filter_of
  intro c
  by_cases h13 : c = 13
  · subst h13
    by_cases hp : p 13 = true <;> by_cases hq : q 13 = true <;>
      simp [diffTag, hp, hq]
  · by_cases hp : p c = true <;> by_cases hq : q c = true <;>
      simp [diffTag, hp, hq, h13]

/-- Every universe char is convertible by the closed table. -/
theorem tryFromChar_of_mem : ∀ c ∈ UChars, (Newline.tryFromChar c).isSome = true := by
  decide

/-- Expansion of a non-CR char does not depend on the flags. -/
theorem expand_ne13 {c : Ch} (h : ¬(c = 13)) (cr crlf cr' crlf' : Bool) :
    expand c cr crlf = expand c cr' crlf' := by
  simp [expand, h]

/-- A full forward traversal of `Char2Newline` over a strictly ascending
char source from the universe expands each char independently. -/
theorem char2newline_flatMap :
    ∀ l : List Ch, strictSortedBy natLtB l = true → (∀ c ∈ l, c ∈ UChars) →
      ∀ cr crlf : Bool,
        char2newline l cr crlf = l.flatMap (fun c => expand c cr crlf) := by
  intro l
  induction l with
  | nil => intro _ _ cr crlf; rfl
  | cons c t ih =>
    intro h hsub cr crlf
    have ht := strictSortedBy_tail natLtB c t h
    have hct : ∀ x ∈ t, c < x := fun x hx =>
      of_decide_eq_true (strictSortedBy_head_lt natLtB natLtB_trans t c h x hx)
    have hsubt : ∀ x ∈ t, x ∈ UChars := fun x hx => hsub x (List.mem_cons_of_mem c hx)
    rw [List.flatMap_cons]
    by_cases h13 : c = 13
    · subst h13
      have hne : ∀ x ∈ t, ¬(x = 13) := by
        intro x hx hx13
        exact Nat.lt_irrefl 13 (hx13 ▸ hct x hx)
      have hcongr : ∀ cr' crlf',
          t.flatMap (fun x => expand x cr' crlf') =
            t.flatMap (fun x => expand x cr crlf) := by
        intro cr' crlf'
        exact List.flatMap_congr (fun x hx => expand_ne13 (hne x hx) _ _ _ _)
      cases cr <;> cases crlf
      · show char2newline t false false = expand 13 false false ++ _
        rw [ih ht hsubt false false]
        rfl
      · show Newline.crLf :: char2newline t false true = expand 13 false true ++ _
        rw [ih ht hsubt false true]
        rfl
      · show Newline.carriageReturn :: char2newline t true false =
          expand 13 true false ++ _
        rw [ih ht hsubt true false]
        rfl
      · show Newline.carriageReturn :: Newline.crLf ::
            char2newline t false true = expand 13 true true ++ _
        rw [ih ht hsubt false true, hcongr false true]
        rfl
    · obtain ⟨nl, hnl⟩ := Option.isSome_iff_exists.mp (tryFromChar_of_mem c (hsub c (List.mem_cons_self c t)))
      show char2newline (c :: t) cr crlf = expand c cr crlf ++ _
      simp only [char2newline, if_neg h13, hnl, expand]
      rw [ih ht hsubt]
      rfl

/-- A filter of the char universe only looks at the seven char values. -/
theorem filter_chPredOf (g : Ch → Bool) :
    UChars.filter g = UChars.filter
      (chPredOf (g 10) (g 11) (g 12) (g 13) (g 133) (g 8232) (g 8233)) := by
  apply List.filter_congr
  intro c hc
  simp only [UChars] at hc
  fin_cases hc <;> rfl

/-- Expanding an ascending selection of universe chars with flags that can
only want `'\r'` when it is selected yields exactly the corresponding
selection of `Newline` variants (checked by enumeration over all flag
combinations). -/
theorem expand_bridge : ∀ c1 c2 c3 c4 c5 c6 c7 cr crlf : Bool,
    ((cr || crlf) = true → c4 = true) →
    (UChars.filter (chPredOf c1 c2 c3 c4 c5 c6 c7)).flatMap
        (fun c => expand c cr crlf)
      = allNewlines.filter (predOf c1 c2 c3 cr crlf c5 c6 c7) := by decide

/-- Boolean shuffle used for the flag side conditions of the lazy ops. -/
theorem bool_reorder (a b c d : Bool) (h : ((a || c) || (b || d)) = true) :
    ((a || b) || (c || d)) = true := by
  cases a <;> cases b <;> cases c <;> cases d <;> simp_all

/-- The CR flag of a canonical set. -/
theorem canon_cr (m : Newline → Bool) : (canon m).cr = m .carriageReturn := rfl

/-- The CRLF flag of a canonical set. -/
theorem canon_crlf (m : Newline → Bool) : (canon m).crlf = m .crLf := rfl

/-- `Union` on canonical sets yields the enumeration filtered by the
disjunction of the membership functions. -/
theorem unionList_canon (m1 m2 : Newline → Bool) :
    (canon m1).unionList (canon m2) = allNewlines.filter (fun n => m1 n || m2 n) := by
  have hgu := strictSortedBy_filter natLtB natLtB_trans
    (fun c => charMem m1 c || charMem m2 c) UChars UChars_sorted
  have hsub : ∀ c ∈ UChars.filter (fun c => charMem m1 c || charMem m2 c), c ∈ UChars :=
    fun c hc => (List.mem_filter.mp hc).1
  have hside : ((m1 Newline.carriageReturn || m2 Newline.carriageReturn)
      || (m1 Newline.crLf || m2 Newline.crLf)) = true →
      (charMem m1 13 || charMem m2 13) = true := by
    intro h
    show ((m1 Newline.carriageReturn || m1 Newline.crLf)
      || (m2 Newline.carriageReturn || m2 Newline.crLf)) = true
    exact bool_reorder _ _ _ _ h
  show char2newline
      (innerUnionList (diffList (canon m1).pattern.asSlice (canon m2).pattern.asSlice))
      ((canon m1).cr || (canon m2).cr) ((canon m1).crlf || (canon m2).crlf)
    = allNewlines.filter (fun n => m1 n || m2 n)
  rw [canon_slice m1, canon_slice m2, canon_cr m1, canon_cr m2, canon_crlf m1,
    canon_crlf m2, innerUnion_spec (charMem m1) (charMem m2) UChars UChars_sorted,
    char2newline_flatMap _ hgu hsub,
    filter_chPredOf (fun c => charMem m1 c || charMem m2 c),
    expand_bridge _ _ _ _ _ _ _ _ _ hside]
  apply List.filter_congr
  intro n _
  cases n <;> rfl

/-- Boolean fact for the intersection flag side condition. -/
theorem bool_inter (a b c d : Bool) (h : ((a && c) || (b && d)) = true) :
    ((a || b) && (c || d)) = true := by
  cases a <;> cases b <;> cases c <;> cases d <;> simp_all

/-- Boolean fact for the symmetric-difference flag side condition. -/
theorem bool_symd (a b c d : Bool) (h : ((xor a c) || (xor b d)) = true) :
    ((a || b) || (c || d)) = true := by
  cases a <;> cases b <;> cases c <;> cases d <;> simp_all

/-- Boolean fact for the difference flag side condition. -/
theorem bool_diff (a b c d : Bool) (h : ((a && !c) || (b && !d)) = true) :
    (a || b) = true := by
  cases a <;> cases b <;> cases c <;> cases d <;> simp_all

/-- `Intersection` on canonical sets yields the enumeration filtered by the
conjunction of the membership functions. -/
theorem intersectionList_canon (m1 m2 : Newline → Bool) :
    (canon m1).intersectionList (canon m2)
      = allNewlines.filter (fun n => m1 n && m2 n) := by
  have hgu := strictSortedBy_filter natLtB natLtB_trans
    (fun c => charMem m1 c && charMem m2 c) UChars UChars_sorted
  have hsub : ∀ c ∈ UChars.filter (fun c => charMem m1 c && charMem m2 c), c ∈ UChars :=
    fun c hc => (List.mem_filter.mp hc).1
  have hside : ((m1 Newline.carriageReturn && m2 Newline.carriageReturn)
      || (m1 Newline.crLf && m2 Newline.crLf)) = true →
      (charMem m1 13 && charMem m2 13) = true := by
    intro h
    show ((m1 Newline.carriageReturn || m1 Newline.crLf)
      && (m2 Newline.carriageReturn || m2 Newline.crLf)) = true
    exact bool_inter _ _ _ _ h
  show char2newline
      (innerIntersectionList (diffList (canon m1).pattern.asSlice (canon m2).pattern.asSlice))
      ((canon m1).cr && (canon m2).cr) ((canon m1).crlf && (canon m2).crlf)
    = allNewlines.filter (fun n => m1 n && m2 n)
  rw [canon_slice m1, canon_slice m2, canon_cr m1, canon_cr m2, canon_crlf m1,
    canon_crlf m2,
    innerIntersection_spec (charMem m1) (charMem m2) UChars UChars_sorted,
    char2newline_flatMap _ hgu hsub,
    filter_chPredOf (fun c => charMem m1 c && charMem m2 c),
    expand_bridge _ _ _ _ _ _ _ _ _ hside]
  apply List.filter_congr
  intro n _
  cases n <;> rfl

/-- `SymmetricDifference` on canonical sets yields the enumeration filtered
by the exclusive disjunction of the membership functions: the shared-`'\r'`
pass-through never produces a spurious element because the disambiguation
layer drops a `'\r'` whose combined flags are both unset. -/
theorem symmetricDifferenceList_canon (m1 m2 : Newline → Bool) :
    (canon m1).symmetricDifferenceList (canon m2)
      = allNewlines.filter (fun n => xor (m1 n) (m2 n)) := by
  have hgu := strictSortedBy_filter natLtB natLtB_trans
    (fun c => if c = 13 then charMem m1 c || charMem m2 c
      else xor (charMem m1 c) (charMem m2 c)) UChars UChars_sorted
  have hsub : ∀ c ∈ UChars.filter (fun c => if c = 13 then charMem m1 c || charMem m2 c
      else xor (charMem m1 c) (charMem m2 c)), c ∈ UChars :=
    fun c hc => (List.mem_filter.mp hc).1
  have hside : ((xor (m1 Newline.carriageReturn) (m2 Newline.carriageReturn))
      || (xor (m1 Newline.crLf) (m2 Newline.crLf))) = true →
      (charMem m1 13 || charMem m2 13) = true := by
    intro h
    show ((m1 Newline.carriageReturn || m1 Newline.crLf)
      || (m2 Newline.carriageReturn || m2 Newline.crLf)) = true
    exact bool_symd _ _ _ _ h
  show char2newline
      (innerSymDiffList (diffList (canon m1).pattern.asSlice (canon m2).pattern.asSlice))
      (xor (canon m1).cr (canon m2).cr) (xor (canon m1).crlf (canon m2).crlf)
    = allNewlines.filter (fun n => xor (m1 n) (m2 n))
  rw [canon_slice m1, canon_slice m2, canon_cr m1, canon_cr m2, canon_crlf m1,
    canon_crlf m2,
    innerSymDiff_spec (charMem m1) (charMem m2) UChars UChars_sorted,
    char2newline_flatMap _ hgu hsub,
    filter_chPredOf (fun c => if c = 13 then charMem m1 c || charMem m2 c
      else xor (charMem m1 c) (charMem m2 c))]
  simp only [reduceIte]
  rw [expand_bridge _ _ _ _ _ _ _ _ _ hside]
  apply List.filter_congr
  intro n _
  cases n <;> rfl

/-- `Difference` on canonical sets yields the enumeration filtered by
membership in the left but not the right function. -/
theorem differenceList_canon (m1 m2 : Newline → Bool) :
    (canon m1).differenceList (canon m2)
      = allNewlines.filter (fun n => m1 n && !(m2 n)) := by
  have hgu := strictSortedBy_filter natLtB natLtB_trans
    (fun c => if c = 13 then charMem m1 c
      else charMem m1 c && !(charMem m2 c)) UChars UChars_sorted
  have hsub : ∀ c ∈ UChars.filter (fun c => if c = 13 then charMem m1 c
      else charMem m1 c && !(charMem m2 c)), c ∈ UChars :=
    fun c hc => (List.mem_filter.mp hc).1
  have hside : ((m1 Newline.carriageReturn && !(m2 Newline.carriageReturn))
      || (m1 Newline.crLf && !(m2 Newline.crLf))) = true →
      (charMem m1 13) = true := by
    intro h
    show (m1 Newline.carriageReturn || m1 Newline.crLf) = true
    exact bool_diff _ _ _ _ h
  show char2newline
      (innerDifferenceList (diffList (canon m1).pattern.asSlice (canon m2).pattern.asSlice))
      ((canon m1).cr && !(canon m2).cr) ((canon m1).crlf && !(canon m2).crlf)
    = allNewlines.filter (fun n => m1 n && !(m2 n))
  rw [canon_slice m1, canon_slice m2, canon_cr m1, canon_cr m2, canon_crlf m1,
    canon_crlf m2,
    innerDifference_spec (charMem m1) (charMem m2) UChars UChars_sorted,
    char2newline_flatMap _ hgu hsub,
    filter_chPredOf (fun c => if c = 13 then charMem m1 c
      else charMem m1 c && !(charMem m2 c))]
  simp only [reduceIte]
  rw [expand_bridge _ _ _ _ _ _ _ _ _ hside]
  apply List.filter_congr
  intro n _
  cases n <;> rfl

/-- The slice of the `ALL` pattern is the char universe. -/
theorem ALL_slice : NewlineSet.ALL.pattern.asSlice = UChars := rfl

/-- Char-level content of the complement merge over the full universe. -/
theorem innerComplement_spec (q : Ch → Bool) (u : List Ch)
    (hu : strictSortedBy natLtB u = true) :
    innerDifferenceList (diffList u (u.filter q)) =
      u.filter (fun c => if c = 13 then true else !(q c)) := by
  have h := innerDifference_spec (fun _ => true) q u hu
  rw [List.filter_true] at h
  exact h.trans (List.filter_congr (fun c _ => by by_cases h13 : c = 13 <;> simp [h13]))

/-- `Complement` on a canonical set yields the enumeration filtered by the
negated membership function. -/
theorem complementList_canon (m : Newline → Bool) :
    (canon m).complementList = allNewlines.filter (fun n => !(m n)) := by
  have hgu := strictSortedBy_filter natLtB natLtB_trans
    (fun c => if c = 13 then true else !(charMem m c)) UChars UChars_sorted
  have hsub : ∀ c ∈ UChars.filter (fun c => if c = 13 then true
      else !(charMem m c)), c ∈ UChars :=
    fun c hc => (List.mem_filter.mp hc).1
  have hside : ((!(m Newline.carriageReturn)) || (!(m Newline.crLf))) = true →
      (true : Bool) = true := fun _ => rfl
  show char2newline
      (innerDifferenceList (diffList NewlineSet.ALL.pattern.asSlice (canon m).pattern.asSlice))
      (!(canon m).cr) (!(canon m).crlf)
    = allNewlines.filter (fun n => !(m n))
  rw [ALL_slice, canon_slice m, canon_cr m, canon_crlf m,
    innerComplement_spec (charMem m) UChars UChars_sorted,
    char2newline_flatMap _ hgu hsub,
    filter_chPredOf (fun c => if c = 13 then true else !(charMem m c))]
  simp only [reduceIte]
  rw [expand_bridge _ _ _ _ _ _ _ _ _ hside]
  apply List.filter_congr
  intro n _
  cases n <;> rfl

/-- `Union` on invariant-satisfying sets yields the enumeration filtered by
membership in either set. -/
theorem unionList_filter (s1 s2 : NewlineSet) (h1 : s1.wfB = true)
    (h2 : s2.wfB = true) :
    s1.unionList s2 = allNewlines.filter (fun n => s1.contains n || s2.contains n) := by
  conv_lhs => rw [wf_canonical s1 h1, wf_canonical s2 h2]
  rw [unionList_canon]

/-- `Intersection` on invariant-satisfying sets. -/
theorem intersectionList_filter (s1 s2 : NewlineSet) (h1 : s1.wfB = true)
    (h2 : s2.wfB = true) :
    s1.intersectionList s2
      = allNewlines.filter (fun n => s1.contains n && s2.contains n) := by
  conv_lhs => rw [wf_canonical s1 h1, wf_canonical s2 h2]
  rw [intersectionList_canon]

/-- `SymmetricDifference` on invariant-satisfying sets. -/
theorem symmetricDifferenceList_filter (s1 s2 : NewlineSet) (h1 : s1.wfB = true)
    (h2 : s2.wfB = true) :
    s1.symmetricDifferenceList s2
      = allNewlines.filter (fun n => xor (s1.contains n) (s2.contains n)) := by
  conv_lhs => rw [wf_canonical s1 h1, wf_canonical s2 h2]
  rw [symmetricDifferenceList_canon]

/-- `Difference` on invariant-satisfying sets. -/
theorem differenceList_filter (s1 s2 : NewlineSet) (h1 : s1.wfB = true)
    (h2 : s2.wfB = true) :
    s1.differenceList s2
      = allNewlines.filter (fun n => s1.contains n && !(s2.contains n)) := by
  conv_lhs => rw [wf_canonical s1 h1, wf_canonical s2 h2]
  rw [differenceList_canon]

/-- `Complement` on an invariant-satisfying set. -/
theorem complementList_filter (s : NewlineSet) (h : s.wfB = true) :
    s.complementList = allNewlines.filter (fun n => !(s.contains n)) := by
  conv_lhs => rw [wf_canonical s h]
  rw [complementList_canon]

/-- Collecting `Union` of canonical sets. -/
theorem unionSet_canon (m1 m2 : Newline → Bool) :
    (canon m1).unionSet (canon m2) = some (canon (fun n => m1 n || m2 n)) := by
  show intoNewlineSet ((canon m1).unionList (canon m2)) = _
  rw [unionList_canon, intoNewlineSet_filter]

/-- Collecting `Intersection` of canonical sets. -/
theorem intersectionSet_canon (m1 m2 : Newline → Bool) :
    (canon m1).intersectionSet (canon m2) = some (canon (fun n => m1 n && m2 n)) := by
  show intoNewlineSet ((canon m1).intersectionList (canon m2)) = _
  rw [intersectionList_canon, intoNewlineSet_filter]

/-- Collecting `SymmetricDifference` of canonical sets. -/
theorem symmetricDifferenceSet_canon (m1 m2 : Newline → Bool) :
    (canon m1).symmetricDifferenceSet (canon m2)
      = some (canon (fun n => xor (m1 n) (m2 n))) := by
  show intoNewlineSet ((canon m1).symmetricDifferenceList (canon m2)) = _
  rw [symmetricDifferenceList_canon, intoNewlineSet_filter]

/-- Collecting `Difference` of canonical sets. -/
theorem differenceSet_canon (m1 m2 : Newline → Bool) :
    (canon m1).differenceSet (canon m2)
      = some (canon (fun n => m1 n && !(m2 n))) := by
  show intoNewlineSet ((canon m1).differenceList (canon m2)) = _
  rw [differenceList_canon, intoNewlineSet_filter]

/-- Collecting `Complement` of a canonical set. -/
theorem complementSet_canon (m : Newline → Bool) :
    (canon m).complementSet = some (canon (fun n => !(m n))) := by
  show intoNewlineSet (canon m).complementList = _
  rw [complementList_canon, intoNewlineSet_filter]

/-- `insert` and `remove` on a canonical set succeed and preserve the
invariant (checked by enumeration over the 256 canonical sets and 8
variants). -/
theorem insert_remove_canon_facts : ∀ b1 b2 b3 b4 b5 b6 b7 b8 : Bool,
    ∀ nl ∈ allNewlines,
      ((canon (predOf b1 b2 b3 b4 b5 b6 b7 b8)).insert nl).isSome = true ∧
      (((canon (predOf b1 b2 b3 b4 b5 b6 b7 b8)).insert nl).map
        (fun r => r.1.wfB)).getD true = true ∧
      (((canon (predOf b1 b2 b3 b4 b5 b6 b7 b8)).remove nl).1).wfB = true := by
  decide

/-- `insert` on an invariant-satisfying set never reaches the `CharSet`
capacity assertion, and both `insert` and `remove` preserve the invariant. -/
theorem insert_remove_wfB (s : NewlineSet) (nl : Newline) (h : s.wfB = true) :
    ((s.insert nl).isSome = true) ∧
    (((s.insert nl).map (fun r => r.1.wfB)).getD true = true) ∧
    (((s.remove nl).1).wfB = true) := by
  rw [wf_canonical s h, canon_predOf]
  exact insert_remove_canon_facts _ _ _ _ _ _ _ _ nl (mem_allNewlines nl)

/-- The empty set satisfies the invariant. -/
theorem EMPTY_wfB : NewlineSet.EMPTY.wfB = true := by decide

/-- Unfolding of one reducer step. -/
theorem ansGo_cons (s : NewlineSet) (prev : Option Ch) (nl : Newline)
    (rest : List Newline) :
    ansGo s prev (nl :: rest) =
      if prev = some (ansStep s nl).2 then
        ansGo (ansStep s nl).1 (some (ansStep s nl).2) rest
      else
        match (ansStep s nl).1.pattern.append (ansStep s nl).2 with
        | some pat => ansGo { (ansStep s nl).1 with pattern := pat }
            (some (ansStep s nl).2) rest
        | none => none := rfl

/-- Re-running a reducer step on its own result changes nothing (the flag
assignment is idempotent and the char is unchanged). -/
theorem ansStep_idem (s : NewlineSet) (x : Newline) :
    ansStep (ansStep s x).1 x = ansStep s x := by
  cases x <;> rfl

/-- A reducer step commutes with updating the pattern of its result. -/
theorem ansStep_pattern (s : NewlineSet) (x : Newline) (p : CharSet) :
    ansStep { (ansStep s x).1 with pattern := p } x
      = ({ (ansStep s x).1 with pattern := p }, (ansStep s x).2) := by
  cases x <;> rfl

/-- An immediately repeated element is skipped by the `prev_char` dedup of
the reducer. -/
theorem ansGo_dup (x : Newline) (rest : List Newline) (s : NewlineSet)
    (prev : Option Ch) :
    ansGo s prev (x :: x :: rest) = ansGo s prev (x :: rest) := by
  rw [ansGo_cons s prev x (x :: rest), ansGo_cons s prev x rest]
  by_cases hp : prev = some (ansStep s x).2
  · rw [if_pos hp, if_pos hp, ansGo_cons, ansStep_idem, if_pos rfl]
  · rw [if_neg hp, if_neg hp]
    cases happ : (ansStep s x).1.pattern.append (ansStep s x).2 with
    | none => rfl
    | some pat =>
      show ansGo { (ansStep s x).1 with pattern := pat } (some (ansStep s x).2)
            (x :: rest)
          = ansGo { (ansStep s x).1 with pattern := pat } (some (ansStep s x).2) rest
      rw [ansGo_cons, ansStep_pattern, if_pos rfl]

/-- `dedupAdj` preserves membership. -/
theorem mem_dedupAdj {α : Type} [DecidableEq α] :
    ∀ (l : List α) (x : α), x ∈ dedupAdj l ↔ x ∈ l := by
  intro l
  induction l using dedupAdj.induct with
  | case1 => intro x; rfl
  | case2 a => intro x; rfl
  | case3 b rest ih =>
    intro x
    rw [dedupAdj, if_pos rfl]
    rw [ih x]
    simp [List.mem_cons]
  | case4 a b rest hab ih =>
    intro x
    rw [dedupAdj, if_neg hab]
    simp [List.mem_cons, ih x]

/-- The reducer is insensitive to collapsing adjacent duplicates. -/
theorem ansGo_dedupAdj :
    ∀ (l : List Newline) (s : NewlineSet) (prev : Option Ch),
      ansGo s prev l = ansGo s prev (dedupAdj l) := by
  intro l
  induction l using dedupAdj.induct with
  | case1 => intro s prev; rfl
  | case2 a => intro s prev; rfl
  | case3 b rest ih =>
    intro s prev
    rw [dedupAdj, if_pos rfl, ansGo_dup]
    exact ih s prev
  | case4 a b rest hab ih =>
    intro s prev
    rw [dedupAdj, if_neg hab]
    rw [ansGo_cons s prev a (b :: rest), ansGo_cons s prev a (dedupAdj (b :: rest))]
    by_cases hp : prev = some (ansStep s a).2
    · rw [if_pos hp, if_pos hp]
      exact ih _ _
    · rw [if_neg hp, if_neg hp]
      cases happ : (ansStep s a).1.pattern.append (ansStep s a).2 with
      | none => rfl
      | some pat => exact ih _ _

/-- `Newline.code` is injective. -/
theorem code_inj : ∀ a b : Newline, a.code = b.code → a = b := by
  intro a b h
  cases a <;> cases b <;> first | rfl | exact absurd h (by decide)

/-- Transitivity of the strict `Newline` comparison. -/
theorem nlLtB_trans : ∀ a b c : Newline, nlLtB a b = true → nlLtB b c = true →
    nlLtB a c = true := by
  intro a b c h1 h2
  exact decide_eq_true (Nat.lt_trans (of_decide_eq_true h1) (of_decide_eq_true h2))

/-- Asymmetry of the strict `Newline` comparison. -/
theorem nlLtB_asym : ∀ a b : Newline, nlLtB a b = true → nlLtB b a = true → False := by
  intro a b h1 h2
  exact Nat.lt_irrefl a.code
    (Nat.lt_trans (of_decide_eq_true h1) (of_decide_eq_true h2))

/-- The enumeration is strictly sorted. -/
theorem allNewlines_sorted : strictSortedBy nlLtB allNewlines = true := by decide

/-- Collapsing adjacent duplicates of a nondecreasing `Newline` list yields
a strictly ascending list. -/
theorem dedupAdj_sorted : ∀ l : List Newline, List.Pairwise nlLe l →
    strictSortedBy nlLtB (dedupAdj l) = true := by
  intro l
  induction l using dedupAdj.induct with
  | case1 => intro _; rfl
  | case2 a => intro _; rfl
  | case3 b rest ih =>
    intro h
    rw [dedupAdj, if_pos rfl]
    exact ih (List.Pairwise.of_cons h)
  | case4 a b rest hab ih =>
    intro h
    rw [dedupAdj, if_neg hab]
    obtain ⟨h1, h2⟩ := List.pairwise_cons.mp h
    obtain ⟨h2h, _⟩ := List.pairwise_cons.mp h2
    apply strictSortedBy_cons
    · intro x hx
      have hxm : x ∈ b :: rest := (mem_dedupAdj _ x).mp hx
      have hle : a.code ≤ x.code := h1 x hxm
      have hne : ¬(x = a) := by
        intro hxa
        rcases List.mem_cons.mp hxm with h' | h'
        · exact hab (hxa.symm.trans h')
        · have hbx : b.code ≤ x.code := h2h x h'
          have h3 : b.code ≤ a.code := hxa ▸ hbx
          exact hab (code_inj a b
            (Nat.le_antisymm (h1 b (List.mem_cons_self b rest)) h3))
      have hcne : ¬(a.code = x.code) := fun hc => hne (code_inj a x hc).symm
      exact decide_eq_true (Nat.lt_of_le_of_ne hle hcne)
    · exact ih (List.Pairwise.of_cons h)

/-- `From<[Newline; N]>` builds exactly the canonical set of the array's
members: sorting, flag assignment, `prev_char` dedup and `append` together
reconstruct the unique representation. -/
theorem fromArray_eq (l : List Newline) :
    NewlineSet.fromArray l = some (canon (fun n => decide (n ∈ l))) := by
  show ansGo NewlineSet.EMPTY none (sortNl l) = _
  rw [ansGo_dedupAdj]
  have hsorted : strictSortedBy nlLtB (dedupAdj (sortNl l)) = true :=
    dedupAdj_sorted (sortNl l) (List.sorted_insertionSort nlLe l)
  have hDD := sorted_subset_filter nlLtB nlLtB_trans nlLtB_asym allNewlines
    (dedupAdj (sortNl l)) allNewlines_sorted hsorted (fun x _ => mem_allNewlines x)
  rw [hDD]
  show intoNewlineSet (allNewlines.filter _) = _
  rw [intoNewlineSet_filter]
  apply congrArg
  apply canon_congr
  intro n
  simp only [decide_eq_decide]
  rw [mem_dedupAdj]
  exact (List.perm_insertionSort nlLe l).mem_iff

/-- The fold of `FromIterator` preserves the invariant. -/
theorem fromIter_aux :
    ∀ (l : List Newline) (s0 : NewlineSet), s0.wfB = true →
      ∀ s, List.foldlM (fun s nl => (s.insert nl).map Prod.fst) s0 l = some s →
        s.wfB = true := by
  intro l
  induction l with
  | nil =>
    intro s0 h s hs
    simp only [List.foldlM_nil, Option.pure_def, Option.some_inj] at hs
    rwa [← hs]
  | cons nl t ih =>
    intro s0 h s hs
    rw [List.foldlM_cons] at hs
    cases hins : s0.insert nl with
    | none =>
      rw [hins] at hs
      simp only [Option.map_none', Option.bind_eq_bind, Option.none_bind] at hs
      exact absurd hs (by simp)
    | some pr =>
      rw [hins] at hs
      simp only [Option.map_some', Option.bind_eq_bind, Option.some_bind] at hs
      have hw := (insert_remove_wfB s0 nl h).2.1
      rw [hins] at hw
      simp only [Option.map_some', Option.getD_some] at hw
      exact ih pr.1 hw s hs

/-- `FromIterator` produces invariant-satisfying sets. -/
theorem fromIter_wfB (l : List Newline) (s : NewlineSet)
    (h : NewlineSet.fromIter l = some s) : s.wfB = true :=
  fromIter_aux l NewlineSet.EMPTY EMPTY_wfB s h

/-- Every reachable `NewlineSet` satisfies the representation invariant. -/
theorem reachable_wfB (s : NewlineSet) (h : Reachable s) : s.wfB = true := by
  induction h with
  | empty => exact EMPTY_wfB
  | ofNewline nl s h =>
    have hw := (insert_remove_wfB NewlineSet.EMPTY nl EMPTY_wfB).2.1
    unfold NewlineSet.fromNewline at h
    cases hins : NewlineSet.EMPTY.insert nl with
    | none =>
      rw [hins] at h
      simp only [Option.map_none'] at h
      exact absurd h (by simp)
    | some pr =>
      rw [hins] at h
      rw [hins] at hw
      simp only [Option.map_some', Option.some_inj] at h
      simp only [Option.map_some', Option.getD_some] at hw
      rwa [← h]
  | ofArray l s h =>
    rw [fromArray_eq l] at h
    simp only [Option.some_inj] at h
    rw [← h]
    exact canon_wfB _
  | ofIter l s h => exact fromIter_wfB l s h
  | insertStep s nl s' b _ hins ih =>
    have hw := (insert_remove_wfB s nl ih).2.1
    rw [hins] at hw
    simpa using hw
  | removeStep s nl _ ih => exact (insert_remove_wfB s nl ih).2.2
  | clearStep s _ _ => exact EMPTY_wfB
  | unionStep a b s ha hb hop iha ihb =>
    rw [wf_canonical a iha, wf_canonical b ihb, unionSet_canon] at hop
    simp only [Option.some_inj] at hop
    rw [← hop]
    exact canon_wfB _
  | interStep a b s ha hb hop iha ihb =>
    rw [wf_canonical a iha, wf_canonical b ihb, intersectionSet_canon] at hop
    simp only [Option.some_inj] at hop
    rw [← hop]
    exact canon_wfB _
  | symdiffStep a b s ha hb hop iha ihb =>
    rw [wf_canonical a iha, wf_canonical b ihb, symmetricDifferenceSet_canon] at hop
    simp only [Option.some_inj] at hop
    rw [← hop]
    exact canon_wfB _
  | diffStep a b s ha hb hop iha ihb =>
    rw [wf_canonical a iha, wf_canonical b ihb, differenceSet_canon] at hop
    simp only [Option.some_inj] at hop
    rw [← hop]
    exact canon_wfB _
  | complementStep a s ha hop iha =>
    rw [wf_canonical a iha, complementSet_canon] at hop
    simp only [Option.some_inj] at hop
    rw [← hop]
    exact canon_wfB _

/-- Boolean fact: pairwise non-sharing of CR and CRLF gives the flag check
of `is_disjoint`. -/
theorem disj13 (a b c d : Bool) (h1 : ¬(a = true ∧ c = true))
    (h2 : ¬(b = true ∧ d = true)) : (!(a && c || b && d)) = true := by
  cases a <;> cases b <;> cases c <;> cases d <;> simp_all

/-- The `is_disjoint` scan accepts any event produced for a non-CR char
whose two memberships do not overlap. -/
theorem disj_bwd_char (p q : Ch → Bool) (b : Bool) (c : Ch) (_hc13 : ¬(c = 13))
    (hpq : ¬(p c = true ∧ q c = true)) (d : Diff)
    (hfc : diffTag p q c = some d) : disjPred b d = true := by
  by_cases hp : p c = true <;> by_cases hq : q c = true
  · exact absurd ⟨hp, hq⟩ hpq
  · simp [diffTag, hp, hq] at hfc
    subst hfc
    simp [disjPred]
  · simp [diffTag, hp, hq] at hfc
    subst hfc
    simp [disjPred]
  · simp [diffTag, hp, hq] at hfc

/-- The `is_disjoint` scan accepts the event produced for `'\r'` when the
flag check holds. -/
theorem disj_bwd_13 (p q : Ch → Bool) (b : Bool) (hb : b = true) (d : Diff)
    (hfc : diffTag p q 13 = some d) : disjPred b d = true := by
  by_cases hp : p 13 = true <;> by_cases hq : q 13 = true
  · simp [diffTag, hp, hq] at hfc
    subst hfc
    simp [disjPred, hb]
  · simp [diffTag, hp, hq] at hfc
    subst hfc
    simp [disjPred]
  · simp [diffTag, hp, hq] at hfc
    subst hfc
    simp [disjPred]
  · simp [diffTag, hp, hq] at hfc

/-- `is_disjoint` is the event scan with its flag check. -/
theorem is_disjoint_eq (s1 s2 : NewlineSet) :
    s1.is_disjoint s2 = (diffList s1.pattern.asSlice s2.pattern.asSlice).all
      (disjPred (!(s1.cr && s2.cr || s1.crlf && s2.crlf))) := by
  show (diffList s1.pattern.asSlice s2.pattern.asSlice).all _
    = (diffList s1.pattern.asSlice s2.pattern.asSlice).all _
  apply congrArg
  funext d
  cases d <;> rfl

/-- `is_disjoint` on canonical sets decides the absence of a common member. -/
theorem is_disjoint_canon_iff (m1 m2 : Newline → Bool) :
    (canon m1).is_disjoint (canon m2) = true ↔
      ∀ n, ¬(m1 n = true ∧ m2 n = true) := by
  rw [is_disjoint_eq, canon_slice m1, canon_slice m2, canon_cr, canon_cr,
    canon_crlf, canon_crlf,
    diffList_filter (charMem m1) (charMem m2) UChars UChars_sorted,
    List.all_eq_true]
  constructor
  · intro hL n
    rintro ⟨ha, hb⟩
    have hboth : ∀ c : Ch, c ∈ UChars → charMem m1 c = true → charMem m2 c = true →
        (if c = 13 then
          !(m1 Newline.carriageReturn && m2 Newline.carriageReturn
            || m1 Newline.crLf && m2 Newline.crLf)
         else false) = true := by
      intro c hcu hp hq
      have hmem : Diff.both c ∈ UChars.filterMap (diffTag (charMem m1) (charMem m2)) := by
        rw [List.mem_filterMap]
        exact ⟨c, hcu, by simp [diffTag, hp, hq]⟩
      exact hL _ hmem
    cases n with
    | carriageReturn =>
      have h13 : charMem m1 13 = true := by
        show (m1 Newline.carriageReturn || m1 Newline.crLf) = true
        simp [ha]
      have h13' : charMem m2 13 = true := by
        show (m2 Newline.carriageReturn || m2 Newline.crLf) = true
        simp [hb]
      have hx := hboth 13 (by simp [UChars]) h13 h13'
      rw [if_pos rfl] at hx
      simp [ha, hb] at hx
    | crLf =>
      have h13 : charMem m1 13 = true := by
        show (m1 Newline.carriageReturn || m1 Newline.crLf) = true
        simp [ha]
      have h13' : charMem m2 13 = true := by
        show (m2 Newline.carriageReturn || m2 Newline.crLf) = true
        simp [hb]
      have hx := hboth 13 (by simp [UChars]) h13 h13'
      rw [if_pos rfl] at hx
      simp [ha, hb] at hx
    | lineFeed => simpa using hboth 10 (by simp [UChars]) ha hb
    | verticalTab => simpa using hboth 11 (by simp [UChars]) ha hb
    | formFeed => simpa using hboth 12 (by simp [UChars]) ha hb
    | nextLine => simpa using hboth 133 (by simp [UChars]) ha hb
    | lineSeparator => simpa using hboth 8232 (by simp [UChars]) ha hb
    | paragraphSeparator => simpa using hboth 8233 (by simp [UChars]) ha hb
  · intro hR d hd
    rw [List.mem_filterMap] at hd
    obtain ⟨c, hc, hfc⟩ := hd
    have hflag : (!(m1 Newline.carriageReturn && m2 Newline.carriageReturn
        || m1 Newline.crLf && m2 Newline.crLf)) = true :=
      disj13 _ _ _ _ (hR .carriageReturn) (hR .crLf)
    simp only [UChars] at hc
    fin_cases hc
    · exact disj_bwd_char _ _ _ 10 (by decide) (fun h => hR .lineFeed h) d hfc
    · exact disj_bwd_char _ _ _ 11 (by decide) (fun h => hR .verticalTab h) d hfc
    · exact disj_bwd_char _ _ _ 12 (by decide) (fun h => hR .formFeed h) d hfc
    · exact disj_bwd_13 _ _ _ hflag d hfc
    · exact disj_bwd_char _ _ _ 133 (by decide) (fun h => hR .nextLine h) d hfc
    · exact disj_bwd_char _ _ _ 8232 (by decide)
        (fun h => hR .lineSeparator h) d hfc
    · exact disj_bwd_char _ _ _ 8233 (by decide)
        (fun h => hR .paragraphSeparator h) d hfc

/-- On a well-formed `CharSet`, `insert` reaches the capacity assertion
exactly when the set is full, the char is new, and the char is greater than
every member (i.e. the binary-search insertion point is the capacity). -/
theorem insert_none_iff (cs : CharSet) (ch : Ch) (h : cs.wfB = true) :
    cs.insert ch = none ↔
      cs.len = 7 ∧ ¬(ch ∈ cs.asSlice) ∧ ∀ c ∈ cs.asSlice, c < ch := by
  simp only [CharSet.wfB, Bool.and_eq_true, decide_eq_true_eq] at h
  obtain ⟨⟨⟨h1, h2⟩, _⟩, _⟩ := h
  have hslen : cs.asSlice.length = cs.len := by
    simp only [CharSet.asSlice, List.length_take, h1]
    omega
  by_cases hmem : ch ∈ cs.asSlice
  · simp [CharSet.insert, hmem]
  · simp only [CharSet.insert, if_neg hmem, h1]
    constructor
    · intro hnone
      have hge : ¬(cs.asSlice.countP (fun c => decide (c < ch)) < 7) := by
        intro hlt
        rw [if_pos hlt] at hnone
        exact Option.noConfusion hnone
      have hle : cs.asSlice.countP (fun c => decide (c < ch)) ≤ cs.asSlice.length :=
        List.countP_le_length _
      have hcnt : cs.asSlice.countP (fun c => decide (c < ch)) = cs.asSlice.length := by
        omega
      have hall := List.countP_eq_length.mp hcnt
      refine ⟨by omega, hmem, ?_⟩
      intro c hc
      exact of_decide_eq_true (hall c hc)
    · rintro ⟨hlen, _, hall⟩
      have hcnt : cs.asSlice.countP (fun c => decide (c < ch)) = cs.asSlice.length :=
        List.countP_eq_length.mpr (fun c hc => decide_eq_true (hall c hc))
      rw [if_neg (by omega)]

/-- The logical size of a canonical set is the number of variants it
contains (checked by enumeration). -/
theorem len_predOf : ∀ b1 b2 b3 b4 b5 b6 b7 b8 : Bool,
    (canon (predOf b1 b2 b3 b4 b5 b6 b7 b8)).len
      = (allNewlines.filter (predOf b1 b2 b3 b4 b5 b6 b7 b8)).length := by decide

/-- The logical size of a canonical set is the number of variants it
contains. -/
theorem len_canon (m : Newline → Bool) :
    (canon m).len = (allNewlines.filter m).length := by
  rw [canon_predOf m, filter_predOf m]
  exact len_predOf _ _ _ _ _ _ _ _

/-- The enumeration is pairwise strictly ascending. -/
theorem allNewlines_pairwise :
    allNewlines.Pairwise (fun a b => a.code < b.code) := by
  decide

/-- A pairwise strictly ascending list has no duplicates. -/
theorem pairwise_lt_nodup (l : List Newline)
    (h : l.Pairwise (fun a b => a.code < b.code)) : l.Nodup :=
  h.imp (fun hab => by
    intro he
    subst he
    exact absurd hab (Nat.lt_irrefl _))

/-- C1: every `NewlineSet` reachable from the constructors (`EMPTY`/`new`,
`From<Newline>`, `From<[Newline; N]>`, `FromIterator`) through any sequence
of `insert`, `remove`, `clear`, and collecting any lazy set-operation
iterator back into a `NewlineSet` satisfies the representation invariant:
`'\r'` is in the pattern iff `cr || crlf`, every pattern char is the leading
char of a newline sequence (so every non-`'\r'` pattern char is the
single-character representation of exactly one non-CR/CRLF member), and the
pattern is strictly sorted without duplicates (the full boolean invariant
`wfB` additionally records the fixed array length and zero fill). -/
theorem C1_invariant (s : NewlineSet) (h : Reachable s) :
    ((13 ∈ s.pattern.asSlice) ↔ (s.cr || s.crlf) = true)
    ∧ (∀ c ∈ s.pattern.asSlice, c ∈ UChars)
    ∧ strictSortedBy natLtB s.pattern.asSlice = true
    ∧ s.wfB = true := by
  have hw := reachable_wfB s h
  have hw' := hw
  simp only [NewlineSet.wfB, CharSet.wfB, Bool.and_eq_true, beq_iff_eq,
    decide_eq_true_eq] at hw'
  obtain ⟨⟨⟨⟨⟨_, _⟩, h3⟩, _⟩, h5⟩, h6⟩ := hw'
  refine ⟨?_, h5, h3, hw⟩
  rw [← h6]
  simp

/-- Witness for C1 at a concrete reachable set. -/
theorem C1_witness :
    (13 ∈ NewlineSet.EMPTY.pattern.asSlice) ↔ (NewlineSet.EMPTY.cr || NewlineSet.EMPTY.crlf) = true :=
  (C1_invariant NewlineSet.EMPTY Reachable.empty).1

/-- C2: for all invariant-satisfying sets `A` and `B`, `A.union(B)` yields
exactly the variants contained in `A` or `B`, in strictly ascending order,
each exactly once. -/
theorem C2_union (A B : NewlineSet) (hA : A.wfB = true) (hB : B.wfB = true) :
    (∀ n : Newline, n ∈ A.unionList B ↔ (A.contains n = true ∨ B.contains n = true))
    ∧ (A.unionList B).Pairwise (fun a b => a.code < b.code)
    ∧ (A.unionList B).Nodup := by
  have he := unionList_filter A B hA hB
  refine ⟨?_, ?_, ?_⟩
  · intro n
    rw [he, List.mem_filter]
    simp [mem_allNewlines n]
  · rw [he]
    exact List.Pairwise.sublist (List.filter_sublist _) allNewlines_pairwise
  · rw [he]
    exact pairwise_lt_nodup _
      (List.Pairwise.sublist (List.filter_sublist _) allNewlines_pairwise)

/-- Witness for C2 at concrete sets. -/
theorem C2_witness :
    Newline.lineFeed ∈ (canonL [Newline.lineFeed]).unionList (canonL [Newline.crLf]) :=
  ((C2_union (canonL [Newline.lineFeed]) (canonL [Newline.crLf])
    (by decide) (by decide)).1 Newline.lineFeed).mpr (Or.inl (by decide))

/-- C3: symmetric difference yields exactly the variants contained in
exactly one operand, ascending and duplicate-free; in particular
`{CarriageReturn, CrLf} ^ {CrLf} = {CarriageReturn}`, and a char-level
`Both('\r')` event with neither combined flag set produces no spurious
element (`{CarriageReturn} ^ {CarriageReturn}`: the inner char iterator
emits `'\r'` but the resulting sequence is empty). -/
theorem C3_symmetric_difference :
    (∀ A B : NewlineSet, A.wfB = true → B.wfB = true →
      (∀ n : Newline, n ∈ A.symmetricDifferenceList B ↔
          xor (A.contains n) (B.contains n) = true)
      ∧ (A.symmetricDifferenceList B).Pairwise (fun a b => a.code < b.code)
      ∧ (A.symmetricDifferenceList B).Nodup)
    ∧ (canonL [Newline.carriageReturn, Newline.crLf]).symmetricDifferenceSet
        (canonL [Newline.crLf]) = some (canonL [Newline.carriageReturn])
    ∧ innerSymDiffList (diffList (canonL [Newline.carriageReturn]).pattern.asSlice
        (canonL [Newline.carriageReturn]).pattern.asSlice) = [13]
    ∧ (canonL [Newline.carriageReturn]).symmetricDifferenceList
        (canonL [Newline.carriageReturn]) = [] := by
  refine ⟨?_, by decide, by decide, by decide⟩
  intro A B hA hB
  have he := symmetricDifferenceList_filter A B hA hB
  refine ⟨?_, ?_, ?_⟩
  · intro n
    rw [he, List.mem_filter]
    simp [mem_allNewlines n]
  · rw [he]
    exact List.Pairwise.sublist (List.filter_sublist _) allNewlines_pairwise
  · rw [he]
    exact pairwise_lt_nodup _
      (List.Pairwise.sublist (List.filter_sublist _) allNewlines_pairwise)

/-- Witness for C3 at concrete sets. -/
theorem C3_witness :
    Newline.carriageReturn ∈ (canonL [Newline.carriageReturn, Newline.crLf]).symmetricDifferenceList
      (canonL [Newline.crLf]) :=
  ((C3_symmetric_difference.1 (canonL [Newline.carriageReturn, Newline.crLf])
    (canonL [Newline.crLf]) (by decide) (by decide)).1 Newline.carriageReturn).mpr
    (by decide)

/-- C4: `len()` is the number of variants contained, computed as
`pattern.len + 1` exactly when both `cr` and `crlf` are set; the set
containing exactly CarriageReturn and CrLf has `len() = 2`, iterates
forward as `[CarriageReturn, CrLf]` and backward as
`[CrLf, CarriageReturn]`. -/
theorem C4_len :
    (∀ A : NewlineSet, A.wfB = true →
      A.len = (allNewlines.filter (fun n => A.contains n)).length)
    ∧ (∀ A : NewlineSet, A.len = A.pattern.len + (if A.cr && A.crlf then 1 else 0))
    ∧ (canonL [Newline.carriageReturn, Newline.crLf]).len = 2
    ∧ (canonL [Newline.carriageReturn, Newline.crLf]).iterList
        = [Newline.carriageReturn, Newline.crLf]
    ∧ (canonL [Newline.carriageReturn, Newline.crLf]).iterBackList
        = [Newline.crLf, Newline.carriageReturn] := by
  refine ⟨?_, fun A => rfl, by decide, by decide, by decide⟩
  intro A hA
  conv_lhs => rw [wf_canonical A hA]
  rw [len_canon]

/-- Witness for C4 at a concrete set. -/
theorem C4_witness :
    (canonL [Newline.crLf]).len
      = (allNewlines.filter (fun n => (canonL [Newline.crLf]).contains n)).length :=
  C4_len.1 (canonL [Newline.crLf]) (by decide)

/-- C5 on canonical sets: difference and intersection collect, the
difference is disjoint from the right operand, and difference and
intersection reunite to the left operand. -/
theorem C5_canon (m1 m2 : Newline → Bool) :
    (canon m1).differenceSet (canon m2) = some (canon (fun n => m1 n && !(m2 n)))
    ∧ (canon m1).intersectionSet (canon m2) = some (canon (fun n => m1 n && m2 n))
    ∧ (canon (fun n => m1 n && !(m2 n))).is_disjoint (canon m2) = true
    ∧ (canon (fun n => m1 n && !(m2 n))).unionSet (canon (fun n => m1 n && m2 n))
        = some (canon m1) := by
  refine ⟨differenceSet_canon m1 m2, intersectionSet_canon m1 m2, ?_, ?_⟩
  · apply (is_disjoint_canon_iff _ _).mpr
    intro n
    rintro ⟨hd, hb⟩
    simp [hb] at hd
  · rw [unionSet_canon]
    apply congrArg
    apply canon_congr
    intro n
    cases hm1 : m1 n <;> cases hm2 : m2 n <;> simp

/-- C5: for all invariant-satisfying `A`, `B`, the set collected from
`A.difference(B)` is disjoint from `B`, and its union with
`A.intersection(B)` collects back to exactly `A`. -/
theorem C5_difference_algebra (A B : NewlineSet) (hA : A.wfB = true)
    (hB : B.wfB = true) :
    ∃ d i : NewlineSet,
      A.differenceSet B = some d ∧ A.intersectionSet B = some i ∧
      d.is_disjoint B = true ∧ d.unionSet i = some A := by
  have h := C5_canon (fun n => A.contains n) (fun n => B.contains n)
  rw [← wf_canonical A hA, ← wf_canonical B hB] at h
  exact ⟨_, _, h.1, h.2.1, h.2.2.1, h.2.2.2⟩

/-- Witness for C5 at concrete sets. -/
theorem C5_witness :
    ∃ d i : NewlineSet,
      (canonL [Newline.carriageReturn]).differenceSet (canonL [Newline.crLf]) = some d ∧
      (canonL [Newline.carriageReturn]).intersectionSet (canonL [Newline.crLf]) = some i ∧
      d.is_disjoint (canonL [Newline.crLf]) = true ∧
      d.unionSet i = some (canonL [Newline.carriageReturn]) :=
  C5_difference_algebra (canonL [Newline.carriageReturn]) (canonL [Newline.crLf])
    (by decide) (by decide)

/-- C6: `is_disjoint` returns `true` iff no variant is contained in both
sets; in particular `{CarriageReturn}` and `{CrLf}` are disjoint although
both patterns contain `'\r'`. -/
theorem C6_disjoint :
    (∀ A B : NewlineSet, A.wfB = true → B.wfB = true →
      (A.is_disjoint B = true ↔
        ∀ n : Newline, ¬(A.contains n = true ∧ B.contains n = true)))
    ∧ (canonL [Newline.carriageReturn]).is_disjoint (canonL [Newline.crLf]) = true
    ∧ 13 ∈ (canonL [Newline.carriageReturn]).pattern.asSlice
    ∧ 13 ∈ (canonL [Newline.crLf]).pattern.asSlice := by
  refine ⟨?_, by decide, by decide, by decide⟩
  intro A B hA hB
  have h := is_disjoint_canon_iff (fun n => A.contains n) (fun n => B.contains n)
  rw [← wf_canonical A hA, ← wf_canonical B hB] at h
  exact h

/-- Witness for C6 at concrete sets. -/
theorem C6_witness :
    (canonL [Newline.lineFeed]).is_disjoint (canonL [Newline.crLf]) = true :=
  ((C6_disjoint.1 (canonL [Newline.lineFeed]) (canonL [Newline.crLf])
    (by decide) (by decide))).mpr (fun n => by cases n <;> decide)

/-- C7 counterexample: a full `CharSet` (len = 7) given a char that is not
a member nevertheless has `insert` succeed (no capacity assertion), because
the char is smaller than every member, so the claimed "exactly when the set
is full and the char is not a member" equivalence fails in the ⇐ direction
(the length invariant is silently broken instead: the last element is
pushed out past the recorded length). -/
theorem C7_counterexample :
    ((CharSet.ofList [1, 2, 3, 4, 5, 6, 7]).len = 7
      ∧ (CharSet.ofList [1, 2, 3, 4, 5, 6, 7]).contains 0 = false)
    ∧ ((CharSet.ofList [1, 2, 3, 4, 5, 6, 7]).insert 0).isSome = true := by
  decide

/-- C7 (amended): `CharSet::insert` reaches the capacity assertion
(returns `none` in the embedding) exactly when the set is full (len = 7),
the char is not already a member, and every member is smaller than the
char (i.e. the insertion point equals the capacity); and the assertion is
unreachable through `NewlineSet` operations: inserting into any
invariant-satisfying `NewlineSet` never panics. -/
theorem C7_insert_capacity :
    (∀ (cs : CharSet) (ch : Ch), cs.wfB = true →
      (cs.insert ch = none ↔
        cs.len = 7 ∧ ¬(ch ∈ cs.asSlice) ∧ ∀ c ∈ cs.asSlice, c < ch))
    ∧ (∀ (s : NewlineSet) (nl : Newline), s.wfB = true →
        (s.insert nl).isSome = true) :=
  ⟨fun cs ch h => insert_none_iff cs ch h,
   fun s nl h => (insert_remove_wfB s nl h).1⟩

/-- Witness for C7 at concrete inputs. -/
theorem C7_witness :
    ((CharSet.ofList [10]).insert 13 = none ↔
      (CharSet.ofList [10]).len = 7 ∧ ¬((13 : Ch) ∈ (CharSet.ofList [10]).asSlice)
        ∧ ∀ c ∈ (CharSet.ofList [10]).asSlice, c < 13)
    ∧ (NewlineSet.EMPTY.insert Newline.lineFeed).isSome = true :=
  ⟨C7_insert_capacity.1 (CharSet.ofList [10]) 13 (by decide),
   C7_insert_capacity.2 NewlineSet.EMPTY Newline.lineFeed (by decide)⟩

/-- C8 (code bug): the claim/spec say every set-operation iterator reports
an exact `size_hint` equal to the number of remaining elements, but a
freshly created `{LineFeed}.union({VerticalTab})` iterator reports
`(0, none)` (the inner `CharSetDiff`/`Inner*` iterators use the default
`Iterator::size_hint`), despite 2 elements remaining; `len()` from
`ExactSizeIterator` would panic on the mismatch. -/
theorem C8_size_hint_bug :
    NewlineSet.unionSizeHintFresh (canonL [Newline.lineFeed]) (canonL [Newline.verticalTab])
        = (0, none)
    ∧ ((canonL [Newline.lineFeed]).unionList (canonL [Newline.verticalTab])).length = 2
    ∧ (canonL [Newline.lineFeed]).wfB = true
    ∧ (canonL [Newline.verticalTab]).wfB = true := by
  decide

/-- C9: `Newline::try_from(&str)` inverts `as_str` for every variant;
`CrLf` is the only variant with no single-char form and is never produced
by `try_from(char)`; and `try_from(char)` inverts `as_char` whenever the
latter returns a char. -/
theorem C9_roundtrip :
    (∀ n : Newline, Newline.tryFromStr n.as_str = some n)
    ∧ Newline.crLf.as_char = none
    ∧ (∀ n : Newline, n ≠ Newline.crLf → n.as_char.isSome = true)
    ∧ (∀ c : Ch, ¬(Newline.tryFromChar c = some Newline.crLf))
    ∧ (∀ (n : Newline) (c : Ch), n.as_char = some c → Newline.tryFromChar c = some n) := by
  refine ⟨fun n => by cases n <;> rfl, by decide,
    fun n h => by cases n <;> first | rfl | exact absurd rfl h, ?_, ?_⟩
  · intro c hc
    unfold Newline.tryFromChar at hc
    split_ifs at hc <;> simp_all
  · intro n c hc
    cases n <;> simp [Newline.as_char, Newline.chartype] at hc <;>
      subst hc <;> decide

/-- Witness for C9 at a concrete input. -/
theorem C9_witness :
    Newline.lineSeparator.as_char = some 8232
      ∧ Newline.tryFromChar 8232 = some Newline.lineSeparator :=
  ⟨by decide, C9_roundtrip.2.2.2.2 Newline.lineSeparator 8232 (by decide)⟩

/-- C10: derived structural equality coincides with extensional equality
on invariant-satisfying `NewlineSet`s: two such sets are equal exactly when
they contain the same variants. -/
theorem C10_eq_ext (A B : NewlineSet) (hA : A.wfB = true) (hB : B.wfB = true) :
    A = B ↔ ∀ n : Newline, A.contains n = B.contains n := by
  constructor
  · rintro rfl
    intro n
    rfl
  · intro h
    rw [wf_canonical A hA, wf_canonical B hB]
    exact canon_congr h

/-- Witness for C10 at concrete sets. -/
theorem C10_witness :
    canonL [Newline.lineFeed] = canonL [Newline.lineFeed] :=
  (C10_eq_ext (canonL [Newline.lineFeed]) (canonL [Newline.lineFeed])
    (by decide) (by decide)).mpr (fun n => rfl)
